import Mathlib

/-!
Verification development for the highlight anchoring core of the
shark-eagle-highlighter browser extension.

The TypeScript source is shallowly embedded:
* JS strings are modelled as `List Char`; JS string builtins
  (`indexOf`, `substring`, `slice`, `trim`) are modelled by executable
  functions with the same clamping semantics (lengths are counted in
  characters rather than UTF-16 code units).
* The live DOM is modelled by the inductive tree `DNode` (elements with a
  tag, an `id` attribute and an optional `data-highlight-id` attribute,
  and text nodes).  Nodes are addressed by child-index paths from the
  document root.
* The functions of `entrypoints/content.ts` (`createHighlightFromSelection`,
  `applyHighlight`, `applyHighlightByContext`, `wrapRangeWithHighlight`,
  `removeHighlightById`) and of `utils/xpath.ts` (`getXPath`,
  `getElementByXPath`) are translated function by function; DOM builtins
  they call (`TreeWalker`, `Range`, `document.evaluate`, `normalize`)
  are modelled by explicit recursive functions on `DNode`.
* `utils/storage.ts`'s `normalizeUrl` is translated together with a model
  of the `URL` / `URLSearchParams` builtins (percent-encoding is not
  modelled; both parse and serialize treat characters literally).
-/

/-- JS strings, modelled as lists of characters. -/
abbrev Str := List Char

namespace JsStr

/-- Model of `hay.indexOf(needle, start)`: the least position `j` with
`start ≤ j ≤ hay.length` at which `needle` occurs; `none` models `-1`.
(For a nonempty needle this agrees with JS everywhere; for the empty
needle JS clamps `start` to the length while this model fails when
`start > hay.length`, a case no call site reaches.) -/
def indexOfFrom (hay needle : Str) (start : Nat) : Option Nat :=
  (List.range (hay.length + 1)).find? (fun j => start ≤ j && needle.isPrefixOf (hay.drop j))

/-- Model of `hay.indexOf(needle)`. -/
def indexOf (hay needle : Str) : Option Nat :=
  indexOfFrom hay needle 0

/-- Clamp an integer index into `[0, len]` as JS `substring` does. -/
def clampIdx (len : Nat) (i : Int) : Nat :=
  (min (max i 0) (len : Int)).toNat

/-- Model of `s.substring(a, b)`: clamps both arguments to `[0, s.length]`
and swaps them when `a > b`. -/
def substring (s : Str) (a b : Int) : Str :=
  let a' := clampIdx s.length a
  let b' := clampIdx s.length b
  ((s.drop (min a' b')).take (max a' b' - min a' b'))

/-- Model of `s.slice(-n)`: the last `n` characters (the whole string when
it is shorter than `n`). -/
def sliceLast (s : Str) (n : Nat) : Str :=
  s.drop (s.length - n)

/-- Model of `s.slice(0, n)`: the first `n` characters. -/
def sliceTake (s : Str) (n : Nat) : Str :=
  s.take n

/-- Model of `s.trim()`. -/
def trim (s : Str) : Str :=
  ((s.dropWhile Char.isWhitespace).reverse.dropWhile Char.isWhitespace).reverse

end JsStr

/-!
## DOM model

Elements carry their (lower-cased) tag name, their `id` attribute (`[]`
models a missing/empty id, matching the JS falsiness check on `el.id`),
and the `data-highlight-id` attribute set by the extension's `<mark>`
wrappers (`none` for ordinary elements).  The class attribute and the
highlight colour are not modelled: no verified property depends on them.
-/

inductive DNode where
  | elem (tag : Str) (idAttr : Str) (hlId : Option Str) (children : List DNode)
  | text (s : Str)

namespace DNode

mutual
/-- Model of `node.textContent`: document-order concatenation of
descendant text. -/
def flatten : DNode → Str
  | .text s => s
  | .elem _ _ _ cs => flattenF cs

/-- Model of `textContent` over a child list. -/
def flattenF : List DNode → Str
  | [] => []
  | n :: ns => flatten n ++ flattenF ns
end

mutual
/-- The text-node contents under a node, in document order: the sequence
visited by `document.createTreeWalker(node, NodeFilter.SHOW_TEXT)`. -/
def textLeaves : DNode → List Str
  | .text s => [s]
  | .elem _ _ _ cs => leavesF cs

/-- Text leaves of a child list, in document order. -/
def leavesF : List DNode → List Str
  | [] => []
  | n :: ns => textLeaves n ++ leavesF ns
end

mutual
/-- Whether the subtree holds a marker element whose `data-highlight-id`
attribute equals `hid` — the model of
`document.querySelector` with a `data-highlight-id` attribute selector. -/
def containsMarker : DNode → Str → Bool
  | .text _, _ => false
  | .elem _ _ h cs, hid => (h = some hid : Bool) || containsMarkerF cs hid

/-- `containsMarker` over a child list. -/
def containsMarkerF : List DNode → Str → Bool
  | [], _ => false
  | n :: ns, hid => containsMarker n hid || containsMarkerF ns hid
end

mutual
/-- Child-index path to the first (pre-order, i.e. document-order) marker
element carrying `data-highlight-id = hid`. -/
def findMarkerPath : DNode → Str → Option (List Nat)
  | .text _, _ => none
  | .elem _ _ h cs, hid =>
    if h = some hid then some []
    else findMarkerPathF cs hid 0

/-- `findMarkerPath` over a child list starting at child index `k`. -/
def findMarkerPathF : List DNode → Str → Nat → Option (List Nat)
  | [], _, _ => none
  | n :: ns, hid, k =>
    match findMarkerPath n hid with
    | some p => some (k :: p)
    | none => findMarkerPathF ns hid (k + 1)
end

mutual
/-- Child-index path to the first (document-order) element whose `id`
attribute equals `i` — the model of the id lookup done by
`document.evaluate` on the `//*[@id="…"]` expressions `getXPath` emits. -/
def findIdPath : DNode → Str → Option (List Nat)
  | .text _, _ => none
  | .elem _ ia _ cs, i =>
    if ia = i then some []
    else findIdPathF cs i 0

/-- `findIdPath` over a child list starting at child index `k`. -/
def findIdPathF : List DNode → Str → Nat → Option (List Nat)
  | [], _, _ => none
  | n :: ns, i, k =>
    match findIdPath n i with
    | some p => some (k :: p)
    | none => findIdPathF ns i (k + 1)
end

mutual
/-- All nonempty `id` attributes in the subtree, in document order. -/
def allIds : DNode → List Str
  | .text _ => []
  | .elem _ ia _ cs => (if ia = [] then [] else [ia]) ++ allIdsF cs

/-- `allIds` over a child list. -/
def allIdsF : List DNode → List Str
  | [] => []
  | n :: ns => allIds n ++ allIdsF ns
end

/-- The node reached from `n` by following a child-index path. -/
def nodeAt : DNode → List Nat → Option DNode
  | n, [] => some n
  | .text _, _ :: _ => none
  | .elem _ _ _ cs, k :: p =>
    match cs.get? k with
    | some c => nodeAt c p
    | none => none

mutual
/-- Replace the node at a (valid) child-index path; an invalid path leaves
the tree unchanged. -/
def setAtPath : DNode → List Nat → DNode → DNode
  | _, [], new => new
  | .text s, _ :: _, _ => .text s
  | .elem t i h cs, k :: p, new => .elem t i h (setChild cs k p new)

/-- Replace inside child `k` of a child list along the remaining path. -/
def setChild : List DNode → Nat → List Nat → DNode → List DNode
  | [], _, _, _ => []
  | c :: cs, 0, p, new => setAtPath c p new :: cs
  | c :: cs, Nat.succ k, p, new => c :: setChild cs k p new
end

mutual
/-- Model of `Node.normalize()`: adjacent text nodes are merged, empty
text nodes are removed, recursively over the whole subtree. -/
def normalizeNode : DNode → DNode
  | .text s => .text s
  | .elem t i h cs => .elem t i h (normalizeF cs)

/-- `normalize` over a child list. -/
def normalizeF : List DNode → List DNode
  | [] => []
  | .text s :: rest =>
    match normalizeF rest with
    | .text s' :: rest' => if s ++ s' = [] then rest' else .text (s ++ s') :: rest'
    | rest' => if s = [] then rest' else .text s :: rest'
  | .elem t i h cs :: rest => .elem t i h (normalizeF cs) :: normalizeF rest
end

mutual
/-- The flattened content of the first (document-order) marker element with
`data-highlight-id = hid`: the text the marked range covers. -/
def markedText : DNode → Str → Option Str
  | .text _, _ => none
  | .elem _ _ h cs, hid =>
    if h = some hid then some (flattenF cs) else markedTextF cs hid

/-- `markedText` over a child list. -/
def markedTextF : List DNode → Str → Option Str
  | [], _ => none
  | n :: ns, hid =>
    match markedText n hid with
    | some s => some s
    | none => markedTextF ns hid
end

/-!
## TreeWalker offset walk

`applyHighlight` and `applyHighlightByContext` walk the container's text
nodes with a `TreeWalker`, accumulating `currentOffset` and recording the
text node (and intra-node offset) holding the range start
(`currentOffset + nodeLength > startOffset`, first hit) and the range end
(`currentOffset + nodeLength >= endOffset`, breaking there).  The loop is
modelled with the offsets kept relative to the remaining leaves: the
recursive call carries `startOffset - currentOffset` / `endOffset -
currentOffset` instead of growing `currentOffset`.  Returned node
positions are indices into the leaf list plus intra-leaf offsets. -/

/-- Continue the walk after the start node was found: locate the leaf where
the accumulated length first reaches `e` (`currentOffset + nodeLength >=
endOffset` in the source). -/
def findEndLeaf : List Str → Nat → Option (Nat × Nat)
  | [], _ => none
  | l :: rest, e =>
    if l.length ≥ e then some (0, e)
    else (findEndLeaf rest (e - l.length)).map (fun q => (q.1 + 1, q.2))

/-- The walker of `applyHighlight`: find the start leaf (first leaf with
`nodeLength > s`) and the end leaf (first leaf reaching `e`); `none` when
the walk ends with a missing boundary (`!startNode || !endNode`). -/
def findRange : List Str → Nat → Nat → Option ((Nat × Nat) × (Nat × Nat))
  | [], _, _ => none
  | l :: rest, s, e =>
    if l.length > s then
      if l.length ≥ e then some ((0, s), (0, e))
      else (findEndLeaf rest (e - l.length)).map (fun q => ((0, s), (q.1 + 1, q.2)))
    else
      if l.length ≥ e then none
      else (findRange rest (s - l.length) (e - l.length)).map
        (fun r => ((r.1.1 + 1, r.1.2), (r.2.1 + 1, r.2.2)))

/-- Flattened-coordinate position of a (leaf index, intra-leaf offset)
boundary point. -/
def flatPos (leaves : List Str) (idx off : Nat) : Nat :=
  ((leaves.take idx).map List.length).sum + off

/-- Model of `range.toString()` for a range between two boundary points of
the leaf sequence: the flattened text between the two flat positions. -/
def rangeText (leaves : List Str) (r : (Nat × Nat) × (Nat × Nat)) : Str :=
  let s := flatPos leaves r.1.1 r.1.2
  let e := flatPos leaves r.2.1 r.2.2
  (leaves.flatten.drop s).take (e - s)

/-!
## Marker wrapping

`wrapRangeWithHighlight` wraps the range in a `<mark class="…"
data-highlight-id="…">`, either in place (`range.surroundContents`) or —
for ranges crossing element boundaries — by `range.extractContents`
followed by `range.insertNode`.  Both successful branches have the same
effect on the quantities verified here (flattened text, marker presence,
marked content), which is modelled by splitting the container's child
forest at the two flattened boundary offsets and splicing the middle part
into a `mark` element.  A partially covered element contributes a cloned
shell around each of its pieces (the DOM keeps the original element
object; only flattened text and marker structure are observed by the
theorems). -/

mutual
/-- Content of a node before flattened offset `a`. -/
def splitBefore : DNode → Nat → List DNode
  | .text s, a => [.text (s.take a)]
  | .elem t i h cs, a => [.elem t i h (splitBeforeF cs a)]

/-- Content of a child list before flattened offset `a`. -/
def splitBeforeF : List DNode → Nat → List DNode
  | [], _ => []
  | n :: ns, a => splitBefore n a ++ splitBeforeF ns (a - (flatten n).length)
end

mutual
/-- Content of a node between flattened offsets `a` and `b`. -/
def splitInside : DNode → Nat → Nat → List DNode
  | .text s, a, b => [.text ((s.drop a).take (b - a))]
  | .elem t i h cs, a, b => [.elem t i h (splitInsideF cs a b)]

/-- Content of a child list between flattened offsets `a` and `b`. -/
def splitInsideF : List DNode → Nat → Nat → List DNode
  | [], _, _ => []
  | n :: ns, a, b =>
    splitInside n a b ++ splitInsideF ns (a - (flatten n).length) (b - (flatten n).length)
end

mutual
/-- Content of a node after flattened offset `max a b = a + (b - a)`. -/
def splitAfter : DNode → Nat → Nat → List DNode
  | .text s, a, b => [.text (s.drop (a + (b - a)))]
  | .elem t i h cs, a, b => [.elem t i h (splitAfterF cs a b)]

/-- Content of a child list after flattened offset `a + (b - a)`. -/
def splitAfterF : List DNode → Nat → Nat → List DNode
  | [], _, _ => []
  | n :: ns, a, b =>
    splitAfter n a b ++ splitAfterF ns (a - (flatten n).length) (b - (flatten n).length)
end

/-- The tag of the wrapper element created by `wrapRangeWithHighlight`. -/
def markTag : Str := 'm' :: 'a' :: 'r' :: 'k' :: []

/-- Model of the successful paths of `wrapRangeWithHighlight` on a child
forest: the content covered by the flattened span `[a, b)` ends up inside
a single `mark` element with `data-highlight-id = hid`, between the
content before and after the span. -/
def wrapForest (cs : List DNode) (a b : Nat) (hid : Str) : List DNode :=
  splitBeforeF cs a ++ (.elem markTag [] (some hid) (splitInsideF cs a b)) :: splitAfterF cs a b

/-- `wrapRangeWithHighlight` at container level: wrap the flattened span
`[a, b)` of the container's content.  (Containers are always elements;
the text case is unreachable and returns the node unchanged.) -/
def wrapContainer : DNode → Nat → Nat → Str → DNode
  | .elem t i h cs, a, b, hid => .elem t i h (wrapForest cs a b hid)
  | .text s, _, _, _ => .text s

/-!
## XPath codec

`getXPath` (identical in `utils/xpath.ts` and `entrypoints/content.ts`)
emits either `//*[@id="…"]` for an element with a nonempty `id`, or an
absolute location path of `tag[sameTagIndex]` steps from the document
root.  `getElementByXPath` evaluates the result with `document.evaluate`.
Only the sublanguage `getXPath` emits is modelled: an XPath string is
represented by which of the two forms it has (`XPathRef`), and
`document.evaluate` by direct id lookup respectively a structural walk
selecting, at each step, the `i`-th child element with the given tag. -/

inductive XPathRef where
  | empty
  | byId (i : Str)
  | byPath (parts : List (Str × Nat))

/-- Whether a node is an element with the given tag
(`sibling.nodeType === Node.ELEMENT_NODE && sibling.tagName === …`). -/
def isElemWithTag : DNode → Str → Bool
  | .elem t _ _ _, tag => t = tag
  | .text _, _ => false

/-- The 1-based index of child `k` among the element children with tag `t`
that precede it, plus itself — the `index` computed by `getXPath`'s
`previousSibling` loop. -/
def sameTagIndex (cs : List DNode) (k : Nat) (t : Str) : Nat :=
  1 + (cs.take k).countP (fun c => isElemWithTag c t)

/-- The `tag[index]` parts of the structural path below the document root,
following a child-index path.  (The source builds the same list bottom-up
with `parts.unshift` while walking `parentElement` links; with nodes
addressed by paths the ancestor chain is recovered by walking downward.)
Fails when the path leaves the element tree. -/
def pathParts : DNode → List Nat → Option (List (Str × Nat))
  | _, [] => some []
  | .text _, _ :: _ => none
  | .elem _ _ _ cs, k :: rest =>
    match cs.get? k with
    | none => none
    | some c =>
      match c with
      | .text _ => none
      | .elem ct _ _ _ =>
        (pathParts c rest).map (fun ps => (ct, sameTagIndex cs k ct) :: ps)

/-- `getXPath` on the element at `path` (the element branch of the
source). -/
def getXPathOfElem (root : DNode) (path : List Nat) : XPathRef :=
  match nodeAt root path with
  | some (.elem _ i _ _) =>
    if i ≠ [] then .byId i
    else
      match root with
      | .text _ => .empty
      | .elem rt _ _ _ =>
        match pathParts root path with
        | some ps => .byPath ((rt, 1) :: ps)
        | none => .empty
  | _ => .empty

/-- Model of `getXPath(node)`: a text node is first replaced by its parent
(`path.dropLast`); a non-element node yields the empty path. -/
def getXPath (root : DNode) (path : List Nat) : XPathRef :=
  match nodeAt root path with
  | some (.text _) => getXPathOfElem root path.dropLast
  | some (.elem ..) => getXPathOfElem root path
  | none => .empty

/-- The position of the `i`-th (1-based) element child with tag `t` — the
node an XPath step `t[i]` selects among a child list. -/
def nthSameTag : List DNode → Str → Nat → Option Nat
  | [], _, _ => none
  | c :: cs, t, i =>
    if isElemWithTag c t then
      if i = 1 then some 0
      else (nthSameTag cs t (i - 1)).map (· + 1)
    else (nthSameTag cs t i).map (· + 1)

/-- Walk the `tag[index]` steps below the document root. -/
def decodeParts : DNode → List (Str × Nat) → Option (List Nat)
  | _, [] => some []
  | .text _, _ :: _ => none
  | .elem _ _ _ cs, (t, i) :: rest =>
    match nthSameTag cs t i with
    | none => none
    | some k =>
      match cs.get? k with
      | some c => (decodeParts c rest).map (fun p => k :: p)
      | none => none

/-- Model of `getElementByXPath`: id form resolves through the first
element carrying the id in document order; the structural form checks the
root step (the document has the single element child `root`) and then
walks the remaining steps.  Any failure yields `none` (the source catches
and returns `null`). -/
def getElementByXPath (x : XPathRef) (root : DNode) : Option (List Nat) :=
  match x with
  | .empty => none
  | .byId i => findIdPath root i
  | .byPath [] => none
  | .byPath ((t, i) :: rest) =>
    match root with
    | .text _ => none
    | .elem rt _ _ _ => if t = rt ∧ i = 1 then decodeParts root rest else none

end DNode

open DNode

/-!
## Content script: capture and resolution

Embedding of `entrypoints/content.ts`.  The `document` is modelled by its
root element (`document.body`, the container used for the document-wide
fallback search, is identified with this root).  The `HighlightPosition`
descriptor keeps the fields resolution reads; the user metadata
(`comment`, `tags`, `color`) is irrelevant to anchoring and omitted. -/

structure HighlightPosition where
  text : Str
  xpath : XPathRef
  startOffset : Nat
  endOffset : Nat
  beforeContext : Str
  afterContext : Str
  id : Str
  createdAt : Nat

/-- The observations `createHighlightFromSelection` makes of a live
`Selection`: `rangeCount`, `isCollapsed`, `toString()` (the `raw` text,
which the browser renders and which therefore need not be a substring of
the container's `textContent`), the path of
`range.commonAncestorContainer`, and the flattened offset of the range
start within that container (the length of the `preRange` built with
`selectNodeContents` + `setEnd`). -/
structure SelectionModel where
  rangeCount : Nat
  isCollapsed : Bool
  raw : Str
  containerPath : List Nat
  startFlat : Nat

/-- Model of `createHighlightFromSelection` (`content.ts` lines 301-334):
guards, trimmed text, `getXPath` of the common ancestor container,
first-occurrence context windows (with JS `substring` clamping around the
`indexOf` result, which is `-1` when the text does not occur), and the
flattened start offset. -/
def createHighlightFromSelection (sel : SelectionModel) (root : DNode)
    (freshId : Str) (now : Nat) : Option HighlightPosition :=
  if sel.rangeCount = 0 ∨ sel.isCollapsed then none
  else
    let text := JsStr.trim sel.raw
    if text = [] then none
    else
      let container := (nodeAt root sel.containerPath).getD (.text [])
      let xpath := getXPath root sel.containerPath
      let containerText := flatten container
      let textStart : Int :=
        match JsStr.indexOf containerText text with
        | some j => (j : Int)
        | none => -1
      let beforeContext := JsStr.substring containerText (max 0 (textStart - 50)) textStart
      let afterContext := JsStr.substring containerText (textStart + text.length)
        (textStart + text.length + 50)
      some { text := text, xpath := xpath, startOffset := sel.startFlat,
             endOffset := sel.startFlat + text.length,
             beforeContext := beforeContext, afterContext := afterContext,
             id := freshId, createdAt := now }

/-- The `while ((foundIndex = containerText.indexOf(position.text,
searchStart)) !== -1)` loop collecting every occurrence, advancing
`searchStart = foundIndex + 1`.  The loop is bounded by explicit fuel so
that it computes by reduction; `containerText.length + 1 - searchStart`
bounds the number of iterations, because every found index is at least
the search start. -/
def findAllMatchesAux (containerText needle : Str) : Nat → Nat → List Nat
  | 0, _ => []
  | Nat.succ fuel, start =>
    match JsStr.indexOfFrom containerText needle start with
    | none => []
    | some j => j :: findAllMatchesAux containerText needle fuel (j + 1)

/-- The occurrence loop from a given search start. -/
def findAllMatchesFrom (containerText needle : Str) (start : Nat) : List Nat :=
  findAllMatchesAux containerText needle (containerText.length + 1 - start) start

/-- All occurrence positions of `needle`, from the start of the text. -/
def findAllMatches (containerText needle : Str) : List Nat :=
  findAllMatchesFrom containerText needle 0

/-- One step of the `allMatches.reduce(...)` callback: keep `curr` only
when strictly closer to the original start offset than `prev`. -/
def closerTo (s0 prev curr : Nat) : Nat :=
  if ((curr : Int) - (s0 : Int)).natAbs < ((prev : Int) - (s0 : Int)).natAbs then curr else prev

/-- The text-position search of `applyHighlightByContext` (`content.ts`
lines 407-444): full context pattern, then partial (last 20 before /
first 20 after) context pattern, then every occurrence of the bare text
picking the one closest to the stored `startOffset` (the reduce keeps
`prev` on ties, so the earlier — lower — offset wins).  `none` models the
`return false` of the no-occurrence case. -/
def computeTextStart (containerText : Str) (pos : HighlightPosition) : Option Nat :=
  let searchPattern := pos.beforeContext ++ pos.text ++ pos.afterContext
  match JsStr.indexOf containerText searchPattern with
  | some contextIndex => some (contextIndex + pos.beforeContext.length)
  | none =>
    let nearPattern := JsStr.sliceLast pos.beforeContext 20 ++ pos.text
      ++ JsStr.sliceTake pos.afterContext 20
    match JsStr.indexOf containerText nearPattern with
    | some nearIndex => some (nearIndex + (JsStr.sliceLast pos.beforeContext 20).length)
    | none =>
      match findAllMatches containerText pos.text with
      | [] => none
      | m :: ms => some (ms.foldl (closerTo pos.startOffset) m)

/-- Model of `applyHighlightByContext` (`content.ts` lines 404-482): the
context/occurrence search on the container's flattened text, then the
text-node walk and the wrap.  Failure (`false`) leaves the document
unchanged. -/
def applyHighlightByContext (cpath : List Nat) (pos : HighlightPosition)
    (root : DNode) : Bool × DNode :=
  let container := (nodeAt root cpath).getD (.text [])
  let containerText := flatten container
  match computeTextStart containerText pos with
  | none => (false, root)
  | some textStart =>
    match findRange (textLeaves container) textStart (textStart + pos.text.length) with
    | none => (false, root)
    | some _ =>
      (true, setAtPath root cpath
        (wrapContainer container textStart (textStart + pos.text.length) pos.id))

/-- Model of `applyHighlight` (`content.ts` lines 337-401): idempotency
check on an existing marker, structural-path resolution of the container
(falling back to the document-wide context search when it is gone), the
`TreeWalker` offset walk, the verbatim text check, and the wrap; every
mismatch escalates to `applyHighlightByContext`. -/
def applyHighlight (pos : HighlightPosition) (root : DNode) : Bool × DNode :=
  if containsMarker root pos.id then (true, root)
  else
    match getElementByXPath pos.xpath root with
    | none => applyHighlightByContext [] pos root
    | some cpath =>
      let container := (nodeAt root cpath).getD (.text [])
      match findRange (textLeaves container) pos.startOffset pos.endOffset with
      | none => applyHighlightByContext cpath pos root
      | some r =>
        if rangeText (textLeaves container) r = pos.text then
          (true, setAtPath root cpath
            (wrapContainer container pos.startOffset pos.endOffset pos.id))
        else applyHighlightByContext cpath pos root

/-- Unwrap the element at child index `k`: its children take its place
(the `insertBefore` loop followed by `mark.remove()`). -/
def unwrapChild (cs : List DNode) (k : Nat) : List DNode :=
  cs.take k ++ (match cs.get? k with
    | some (.elem _ _ _ mcs) => mcs
    | some (.text s) => [.text s]
    | none => []) ++ cs.drop (k + 1)

/-- Model of the DOM part of `removeHighlightById` (`content.ts` lines
225-243): find the first marker with the id, replace it by its children
inside its parent, then `parent.normalize()`.  When no marker exists the
document is untouched.  (A marker is never the document root, so the
root/invalid-parent cases return the tree unchanged.) -/
def removeHighlightById (hid : Str) (root : DNode) : DNode :=
  match findMarkerPath root hid with
  | none => root
  | some p =>
    match p.getLast? with
    | none => root
    | some k =>
      let parentPath := p.dropLast
      match nodeAt root parentPath with
      | some (.elem t i h cs) =>
        setAtPath root parentPath (normalizeNode (.elem t i h (unwrapChild cs k)))
      | _ => root

/-!
## URL normalization (`utils/storage.ts`)

`normalizeUrl` parses the page URL with the `URL` builtin, filters
tracking parameters out of `URLSearchParams`, sorts the remaining keys,
and rebuilds `origin + pathname-without-trailing-slash + ?query`.  The
`URL` / `URLSearchParams` builtins are modelled for the sublanguage the
function touches: the URL is sliced at the first `#`, the first `://`,
the end of the authority (first `/` or `?`) and the first `?`; query
strings split on `&` (empty segments skipped) and each segment at its
first `=`.  Percent-encoding, host case-folding and default-port
removal are not modelled (both serialization and parsing treat
characters literally). -/

namespace UrlModel

/-- Split a string at a separator character (used for the `&` splitting of
`URLSearchParams`); a trailing separator does not produce a trailing
empty segment, which is immaterial because empty segments are skipped. -/
def splitSep (sep : Char) : Str → List Str
  | [] => []
  | c :: cs =>
    if c = sep then [] :: splitSep sep cs
    else match splitSep sep cs with
      | [] => [[c]]
      | seg :: rest => (c :: seg) :: rest

/-- Split one `key=value` segment at its first `=`; a segment without `=`
has the empty value, as in `URLSearchParams`. -/
def parseKV (seg : Str) : Str × Str :=
  (seg.takeWhile (fun c => ¬ (c = '=')), (seg.dropWhile (fun c => ¬ (c = '='))).drop 1)

/-- Model of `new URLSearchParams(search)`: the ordered key/value list. -/
def parseParams (q : Str) : List (Str × Str) :=
  ((splitSep '&' q).filter (fun seg => ¬ (seg = []))).map parseKV

/-- Model of `searchParams.get(key)`: the first value stored under the
key, or `none` for JS `null`. -/
def getParam (params : List (Str × Str)) (k : Str) : Option Str :=
  (params.find? (fun kv => kv.1 = k)).map Prod.snd

/-- Model of `URLSearchParams.toString()` / `append`: `k=v` segments
joined by `&` (characters taken literally, percent-encoding not
modelled). -/
def renderParams : List (Str × Str) → Str
  | [] => []
  | [kv] => kv.1 ++ '=' :: kv.2
  | kv :: rest => kv.1 ++ '=' :: kv.2 ++ '&' :: renderParams rest

/-- The separator between scheme and authority. -/
def schemeSep : Str := ':' :: '/' :: '/' :: []

/-- The fields of a parsed `URL` that `normalizeUrl` reads. -/
structure ParsedUrl where
  origin : Str
  pathname : Str
  search : Str
  deriving DecidableEq

/-- Model of `new URL(u)` restricted to the fields `normalizeUrl` reads:
`origin` is scheme + `://` + authority, `pathname` runs from the first
`/` after the authority up to the query (defaulting to `/`), `search` is
kept without its leading `?`, and the fragment is discarded.  `none`
models the constructor throwing on a string without `://`. -/
def parseUrl (u : Str) : Option ParsedUrl :=
  let s := u.takeWhile (fun c => ¬ (c = '#'))
  match JsStr.indexOf s schemeSep with
  | none => none
  | some i =>
    let scheme := s.take i
    let rest := s.drop (i + schemeSep.length)
    let host := rest.takeWhile (fun c => ¬ (c = '/' ∨ c = '?'))
    let rest2 := rest.drop host.length
    let path := rest2.takeWhile (fun c => ¬ (c = '?'))
    let query := (rest2.drop path.length).drop 1
    some { origin := scheme ++ schemeSep ++ host,
           pathname := if path = [] then ['/'] else path,
           search := query }

/-- The `TRACKING_PARAMS` set (`utils/storage.ts` lines 9-39; the JS `Set`
is modelled by list membership, so the duplicated Mailchimp entries are
harmless). -/
def trackingParams : List Str :=
  ["utm_source".toList, "utm_medium".toList, "utm_campaign".toList, "utm_term".toList,
   "utm_content".toList, "utm_id".toList,
   "_ga".toList, "_gid".toList, "_gac".toList, "gclid".toList, "gclsrc".toList,
   "fbclid".toList, "fb_action_ids".toList, "fb_action_types".toList, "fb_source".toList,
   "fb_ref".toList,
   "msclkid".toList, "mc_cid".toList, "mc_eid".toList,
   "mc_cid".toList, "mc_eid".toList,
   "twclid".toList, "tw_source".toList, "tw_medium".toList, "tw_campaign".toList,
   "li_fat_id".toList, "lipi".toList,
   "epik".toList,
   "ttclid".toList,
   "rdt_cid".toList,
   "hsa_acc".toList, "hsa_cam".toList, "hsa_grp".toList, "hsa_ad".toList, "hsa_src".toList,
   "hsa_tgt".toList, "hsa_kw".toList, "hsa_mt".toList, "hsa_net".toList, "hsa_ver".toList,
   "ref".toList, "referrer".toList, "source".toList, "campaign".toList, "medium".toList,
   "content".toList, "term".toList,
   "sessionid".toList, "session_id".toList, "_hsenc".toList, "_hsmi".toList,
   "mkt_tok".toList,
   "igshid".toList, "yclid".toList, "gbraid".toList, "wbraid".toList]

/-- Model of `key.toLowerCase()`. -/
def toLowerStr (s : Str) : Str := s.map Char.toLower

/-- Model of `pathname.replace(/\/$/, '')`: drop one trailing slash. -/
def stripTrailingSlash (p : Str) : Str :=
  if p.getLast? = some '/' then p.dropLast else p

/-- The sorted non-tracking keys of a query string (the `sortedKeys` of
`normalizeUrl`). -/
def sortedKeysOf (search : Str) : List Str :=
  List.insertionSort (fun a b : Str => a ≤ b)
    (((parseParams search).map Prod.fst).filter
      (fun k => ¬ trackingParams.contains (toLowerStr k)))

/-- The cleaned key/value list of a query string (the `cleanedParams` of
`normalizeUrl`). -/
def cleanedOf (search : Str) : List (Str × Str) :=
  (sortedKeysOf search).filterMap
    (fun k => (getParam (parseParams search) k).map (fun v => (k, v)))

/-- The rebuilt query string of `normalizeUrl`. -/
def queryOf (search : Str) : Str := renderParams (cleanedOf search)

/-- Model of `normalizeUrl` (`utils/storage.ts` lines 42-70): strip the
hash, drop tracking parameters, sort the remaining keys (JS `sort()` is
lexicographic and stable, modelled by `insertionSort` under the list
order), rebuild each key with its first stored value, drop one trailing
slash from the pathname, and reassemble; unparseable input is returned
unchanged. -/
def normalizeUrl (url : Str) : Str :=
  match parseUrl url with
  | none => url
  | some parsed =>
    let searchParams := parseParams parsed.search
    let sortedKeys := List.insertionSort (fun a b : Str => a ≤ b)
      ((searchParams.map Prod.fst).filter
        (fun k => ¬ trackingParams.contains (toLowerStr k)))
    let cleanedParams := sortedKeys.filterMap
      (fun k => (getParam searchParams k).map (fun v => (k, v)))
    let queryString := renderParams cleanedParams
    let pathname := stripTrailingSlash parsed.pathname
    parsed.origin ++ pathname ++ (if queryString = [] then [] else '?' :: queryString)

end UrlModel

/-!
## Concrete documents, selections and URLs used by witnesses and
counterexamples
-/

/-- A paragraph containing only the text `xyz`. -/
def exDocXyz : DNode := .elem "p".toList [] none [.text "xyz".toList]

/-- A document whose whole text is `a bc`. -/
def exDocABC : DNode := .elem "html".toList [] none [.text "a bc".toList]

/-- A selection of ` bc` (with its leading space) inside `exDocABC`:
raw text `[1, 4)` of the flattened text. -/
def exSelABC : SelectionModel :=
  { rangeCount := 1, isCollapsed := false, raw := " bc".toList,
    containerPath := [], startFlat := 1 }

/-- The descriptor `createHighlightFromSelection` captures for
`exSelABC`: the text is trimmed to `bc` but the offsets still point at
the untrimmed start, so `[1, 3)` covers ` b`. -/
def exDescC4 : HighlightPosition :=
  { text := "bc".toList, xpath := .byPath [("html".toList, 1)],
    startOffset := 1, endOffset := 3,
    beforeContext := "a ".toList, afterContext := [],
    id := "h1".toList, createdAt := 0 }

/-- A whitespace-free selection of `bc` inside `exDocABC`: raw text
`[2, 4)` of the flattened text. -/
def exSelBC : SelectionModel :=
  { rangeCount := 1, isCollapsed := false, raw := "bc".toList,
    containerPath := [], startFlat := 2 }

/-- Container text with `the cat sat` at offsets 10 and 200 (179 filler
characters in between) — the tie-break scenario of the spec. -/
def exCtC2 : Str :=
  "0123456789".toList ++ "the cat sat".toList ++ List.replicate 179 'x'
    ++ "the cat sat".toList

/-- A container holding `exCtC2` as its single text node. -/
def exDocC2 : DNode := .elem "div".toList [] none [.text exCtC2]

/-- A descriptor for `the cat sat` with `startOffset = 12` whose context
fields (a `Q`, which does not occur in `exCtC2`) defeat both context
searches, forcing the last-resort tier. -/
def exPosC2 : HighlightPosition :=
  { text := "the cat sat".toList, xpath := .byPath [("div".toList, 1)],
    startOffset := 12, endOffset := 23,
    beforeContext := "Q".toList, afterContext := [],
    id := "c2".toList, createdAt := 0 }

/-- A descriptor whose text `zz` occurs nowhere in `exDocXyz` and whose
structural path resolves to nothing: resolution fails on every tier. -/
def exPosFail : HighlightPosition :=
  { text := "zz".toList, xpath := .byId "nope".toList,
    startOffset := 0, endOffset := 2,
    beforeContext := [], afterContext := [],
    id := "f1".toList, createdAt := 0 }

/-- A document with two `div` children, the first carrying the stable id
`main` — exercising both forms of the structural-path codec. -/
def exDocId : DNode :=
  .elem "html".toList [] none
    [.elem "div".toList "main".toList none [.text "hi".toList],
     .elem "div".toList [] none [.text "ho".toList]]

/-- The descriptor captured for `exSelBC`. -/
def exDescBC : HighlightPosition :=
  { text := "bc".toList, xpath := .byPath [("html".toList, 1)],
    startOffset := 2, endOffset := 4,
    beforeContext := "a ".toList, afterContext := [],
    id := "h2".toList, createdAt := 0 }

namespace JsStr

theorem indexOfFrom_some {hay needle : Str} {start j : Nat}
    (h : indexOfFrom hay needle start = some j) :
    start ≤ j ∧ needle <+: hay.drop j := by
  have hmem := List.find?_some h
  simp only [Bool.and_eq_true, decide_eq_true_eq, List.isPrefixOf_iff_prefix] at hmem
  exact hmem

theorem indexOfFrom_some_le {hay needle : Str} {start j : Nat}
    (h : indexOfFrom hay needle start = some j) : j ≤ hay.length := by
  have hmem := List.mem_of_find?_eq_some h
  have := List.mem_range.mp hmem
  omega

theorem indexOfFrom_min {hay needle : Str} {start j : Nat}
    (h : indexOfFrom hay needle start = some j) :
    ∀ k, start ≤ k → k < j → ¬ needle <+: hay.drop k := by
  intro k hk hkj hpre
  have hj := List.mem_of_find?_eq_some h
  have hjr := List.mem_range.mp hj
  have hkr : k ∈ List.range (hay.length + 1) := List.mem_range.mpr (by omega)
  -- `find?` returns the first element of `range` satisfying the predicate;
  -- `range` lists `0, …, hay.length` in order, so an earlier hit contradicts it.
  have : ∃ i₁, (List.range (hay.length + 1)).indexOf k = i₁ := ⟨_, rfl⟩
  -- Use the generic "find? finds the first" fact via induction on the list.
  clear hj hjr
  have key : ∀ (l : List Nat), l.find? (fun j => start ≤ j && needle.isPrefixOf (hay.drop j)) = some j →
      l.Sorted (· < ·) → k ∈ l → ¬ (start ≤ k ∧ k < j) := by
    intro l
    induction l with
    | nil => intro h' _ hm; cases hm
    | cons a t ih =>
      intro h' hs hm hcon
      rw [List.find?_cons] at h'
      by_cases ha : (fun j => start ≤ j && needle.isPrefixOf (hay.drop j)) a
      · simp only [ha] at h'
        have : a = j := by simpa using h'
        subst this
        rcases List.mem_cons.mp hm with rfl | hmt
        · omega
        · have := (List.sorted_cons.mp hs).1 k hmt
          omega
      · simp only [ha] at h'
        rcases List.mem_cons.mp hm with rfl | hmt
        · apply ha
          simp only [Bool.and_eq_true, decide_eq_true_eq, List.isPrefixOf_iff_prefix]
          exact ⟨hcon.1, hpre⟩
        · exact ih h' (List.sorted_cons.mp hs).2 hmt hcon
  exact key _ h (List.sorted_lt_range _) hkr ⟨hk, hkj⟩

theorem indexOfFrom_none {hay needle : Str} {start : Nat}
    (h : indexOfFrom hay needle start = none) :
    ∀ k, start ≤ k → k ≤ hay.length → ¬ needle <+: hay.drop k := by
  intro k hk hkl hpre
  have := List.find?_eq_none.mp h k (List.mem_range.mpr (by omega))
  simp only [Bool.and_eq_true, decide_eq_true_eq, List.isPrefixOf_iff_prefix] at this
  exact this ⟨hk, hpre⟩

/-- An occurrence at `j` gives back the needle as the slice `[j, j+len)`. -/
theorem slice_of_occurrence {hay needle : Str} {j : Nat}
    (hpre : needle <+: hay.drop j) :
    (hay.drop j).take needle.length = needle := by
  rcases hpre with ⟨t, ht⟩
  rw [← ht]
  simp

theorem occurrence_length {hay needle : Str} {j : Nat} (hj : j ≤ hay.length)
    (hpre : needle <+: hay.drop j) : j + needle.length ≤ hay.length := by
  have := hpre.length_le
  simp only [List.length_drop] at this
  omega

end JsStr

namespace DNode

theorem flattenF_append (l₁ l₂ : List DNode) :
    flattenF (l₁ ++ l₂) = flattenF l₁ ++ flattenF l₂ := by
  induction l₁ with
  | nil => simp [flattenF]
  | cons n ns ih => simp [flattenF, ih]

theorem leavesF_append (l₁ l₂ : List DNode) :
    leavesF (l₁ ++ l₂) = leavesF l₁ ++ leavesF l₂ := by
  induction l₁ with
  | nil => simp [leavesF]
  | cons n ns ih => simp [leavesF, ih]

mutual
/-- The flattened text is the join of the text leaves. -/
theorem flatten_eq_leaves : ∀ n : DNode, flatten n = (textLeaves n).flatten
  | .text s => by simp [flatten, textLeaves]
  | .elem t i h cs => by
      simpa [flatten, textLeaves] using flattenF_eq_leaves cs

/-- The flattened text of a child list is the join of its text leaves. -/
theorem flattenF_eq_leaves : ∀ l : List DNode, flattenF l = (leavesF l).flatten
  | [] => by simp [flattenF, leavesF]
  | n :: ns => by
      simp [flattenF, leavesF, flatten_eq_leaves n, flattenF_eq_leaves ns]
end

theorem containsMarkerF_append (l₁ l₂ : List DNode) (hid : Str) :
    containsMarkerF (l₁ ++ l₂) hid = (containsMarkerF l₁ hid || containsMarkerF l₂ hid) := by
  induction l₁ with
  | nil => simp [containsMarkerF]
  | cons n ns ih => simp [containsMarkerF, ih, Bool.or_assoc]

/-- Decompose a list around a valid index. -/
theorem take_get_drop {cs : List DNode} {k : Nat} {c : DNode} (hg : cs.get? k = some c) :
    cs = cs.take k ++ [c] ++ cs.drop (k + 1) := by
  rcases List.get?_eq_some.mp hg with ⟨hlt, hget⟩
  rw [← hget, List.get_eq_getElem, List.take_concat_get' cs k hlt, List.take_append_drop]

/-- `setChild` splices the modified child into place. -/
theorem setChild_eq : ∀ (cs : List DNode) (k : Nat) (p : List Nat) (new : DNode),
    setChild cs k p new =
      cs.take k ++ (match cs.get? k with
        | some c => [setAtPath c p new]
        | none => []) ++ cs.drop (k + 1)
  | [], k, p, new => by cases k <;> simp [setChild]
  | c :: cs, 0, p, new => by simp [setChild]
  | c :: cs, Nat.succ k, p, new => by
      simp only [setChild, List.take_succ_cons, List.get?_cons_succ, List.drop_succ_cons,
        List.cons_append]
      rw [setChild_eq cs k p new]

/-- Splicing a flatten-preserving replacement at a valid path preserves the
whole tree's flattened text. -/
theorem flatten_setAtPath : ∀ (p : List Nat) (n tgt new : DNode),
    nodeAt n p = some tgt → flatten new = flatten tgt →
    flatten (setAtPath n p new) = flatten n
  | [], n, tgt, new, h, hf => by
      simp only [nodeAt, Option.some.injEq] at h
      subst h
      simp only [setAtPath]
      exact hf
  | k :: p, .text s, tgt, new, h, hf => by simp [nodeAt] at h
  | k :: p, .elem t i hh cs, tgt, new, h, hf => by
      simp only [nodeAt] at h
      cases hg : cs.get? k with
      | none => rw [hg] at h; exact absurd h (by simp)
      | some c =>
        rw [hg] at h
        have ih := flatten_setAtPath p c tgt new h hf
        have hsplit := take_get_drop hg
        simp only [setAtPath, flatten]
        rw [setChild_eq cs k p new, hg]
        conv_rhs => rw [hsplit]
        simp [flattenF_append, flattenF, ih]

/-- A valid path stays valid through replacement elsewhere is not needed;
instead: splicing a marker-carrying subtree at a valid path makes the
whole tree carry the marker. -/
theorem containsMarker_setAtPath : ∀ (p : List Nat) (n tgt new : DNode),
    nodeAt n p = some tgt → containsMarker new hid = true →
    containsMarker (setAtPath n p new) hid = true
  | [], n, tgt, new, h, hm => by
      simp only [nodeAt, Option.some.injEq] at h
      subst h
      simp only [setAtPath]
      exact hm
  | k :: p, .text s, tgt, new, h, hm => by simp [nodeAt] at h
  | k :: p, .elem t i hh cs, tgt, new, h, hm => by
      simp only [nodeAt] at h
      cases hg : cs.get? k with
      | none => rw [hg] at h; exact absurd h (by simp)
      | some c =>
        rw [hg] at h
        have ih := containsMarker_setAtPath p c tgt new h hm
        simp only [setAtPath, containsMarker]
        rw [setChild_eq cs k p new, hg]
        simp [containsMarkerF_append, containsMarkerF, ih]

mutual
/-- A subtree without the marker contributes nothing to `markedText`. -/
theorem markedText_eq_none : ∀ (n : DNode) (hid : Str),
    containsMarker n hid = false → markedText n hid = none
  | .text _, hid, _ => by simp [markedText]
  | .elem t i h cs, hid, hc => by
      simp only [containsMarker, Bool.or_eq_false_iff, decide_eq_false_iff_not] at hc
      simp only [markedText, if_neg hc.1]
      exact markedTextF_eq_none cs hid hc.2

/-- A child list without the marker contributes nothing to `markedText`. -/
theorem markedTextF_eq_none : ∀ (l : List DNode) (hid : Str),
    containsMarkerF l hid = false → markedTextF l hid = none
  | [], hid, _ => by simp [markedTextF]
  | n :: ns, hid, hc => by
      simp only [containsMarkerF, Bool.or_eq_false_iff] at hc
      simp only [markedTextF, markedText_eq_none n hid hc.1]
      exact markedTextF_eq_none ns hid hc.2
end

theorem markedTextF_append (l₁ l₂ : List DNode) (hid : Str) :
    markedTextF (l₁ ++ l₂) hid =
      (match markedTextF l₁ hid with
        | some s => some s
        | none => markedTextF l₂ hid) := by
  induction l₁ with
  | nil => simp [markedTextF]
  | cons n ns ih =>
      simp only [List.cons_append, markedTextF, ih]
      cases markedText n hid <;> simp [ih]

mutual
/-- `containsMarker` restricted to a marker-free tree is monotone under
sublists: helper stating marker-freedom passes to children. -/
theorem containsMarkerF_of_not : ∀ (l : List DNode) (hid : Str) (k : Nat) (c : DNode),
    containsMarkerF l hid = false → l.get? k = some c → containsMarker c hid = false
  | [], hid, k, c, _, hg => by simp at hg
  | n :: ns, hid, 0, c, hc, hg => by
      simp only [containsMarkerF, Bool.or_eq_false_iff] at hc
      simp only [List.get?_cons_zero, Option.some.injEq] at hg
      subst hg; exact hc.1
  | n :: ns, hid, Nat.succ k, c, hc, hg => by
      simp only [containsMarkerF, Bool.or_eq_false_iff] at hc
      simp only [List.get?_cons_succ] at hg
      exact containsMarkerF_of_not ns hid k c hc.2 hg
end

/-- In a tree that did not carry the marker, after splicing `new` at a valid
path the first marker found is the first marker of `new`. -/
theorem markedText_setAtPath : ∀ (p : List Nat) (n tgt new : DNode),
    nodeAt n p = some tgt → containsMarker n hid = false →
    markedText (setAtPath n p new) hid = markedText new hid
  | [], n, tgt, new, h, hm => by
      simp only [nodeAt, Option.some.injEq] at h
      subst h
      simp [setAtPath]
  | k :: p, .text s, tgt, new, h, hm => by simp [nodeAt] at h
  | k :: p, .elem t i hh cs, tgt, new, h, hm => by
      simp only [nodeAt] at h
      cases hg : cs.get? k with
      | none => rw [hg] at h; exact absurd h (by simp)
      | some c =>
        rw [hg] at h
        simp only [containsMarker, Bool.or_eq_false_iff, decide_eq_false_iff_not] at hm
        have hcm : containsMarker c hid = false := containsMarkerF_of_not cs hid k c hm.2 hg
        have ih := markedText_setAtPath p c tgt new h hcm
        have hsplit := take_get_drop hg
        have hmf := hm.2
        rw [hsplit, containsMarkerF_append, containsMarkerF_append] at hmf
        simp only [Bool.or_eq_false_iff, containsMarkerF, containsMarker,
          Bool.or_eq_false_iff] at hmf
        simp only [setAtPath, markedText, if_neg hm.1]
        rw [setChild_eq cs k p new, hg, markedTextF_append, markedTextF_append]
        rw [markedTextF_eq_none (cs.take k) hid hmf.1.1]
        rw [markedTextF_eq_none (cs.drop (k + 1)) hid hmf.2]
        simp only [markedTextF, ih]
        cases markedText new hid <;> simp

theorem findEndLeaf_flatPos : ∀ (leaves : List Str) (e : Nat) (q : Nat × Nat),
    findEndLeaf leaves e = some q → 0 < e → flatPos leaves q.1 q.2 = e
  | [], e, q, h, _ => by simp [findEndLeaf] at h
  | l :: rest, e, q, h, he => by
      simp only [findEndLeaf] at h
      by_cases hc : l.length ≥ e
      · rw [if_pos hc] at h
        cases h
        simp [flatPos]
      · rw [if_neg hc] at h
        cases hq : findEndLeaf rest (e - l.length) with
        | none => rw [hq] at h; exact absurd h (by simp)
        | some q' =>
          rw [hq] at h
          simp only [Option.map_some', Option.some.injEq] at h
          subst h
          have ih := findEndLeaf_flatPos rest (e - l.length) q' hq (by omega)
          simp only [flatPos, List.take_succ_cons, List.map_cons, List.sum_cons]
          simp only [flatPos] at ih
          omega

theorem findEndLeaf_isSome : ∀ (leaves : List Str) (e : Nat),
    0 < e → e ≤ (leaves.map List.length).sum → (findEndLeaf leaves e).isSome
  | [], e, he, hle => by simp at hle; omega
  | l :: rest, e, he, hle => by
      simp only [findEndLeaf]
      by_cases hc : l.length ≥ e
      · simp [hc]
      · rw [if_neg hc]
        simp only [List.map_cons, List.sum_cons] at hle
        have := findEndLeaf_isSome rest (e - l.length) (by omega) (by omega)
        cases hq : findEndLeaf rest (e - l.length) with
        | none => rw [hq] at this; simp at this
        | some q' => simp

/-- A successful walk puts the two boundary points exactly at the requested
flattened offsets. -/
theorem findRange_flatPos : ∀ (leaves : List Str) (s e : Nat) (r : (Nat × Nat) × (Nat × Nat)),
    findRange leaves s e = some r → 0 < e →
    flatPos leaves r.1.1 r.1.2 = s ∧ flatPos leaves r.2.1 r.2.2 = e
  | [], s, e, r, h, _ => by simp [findRange] at h
  | l :: rest, s, e, r, h, he => by
      simp only [findRange] at h
      by_cases hs : l.length > s
      · rw [if_pos hs] at h
        by_cases hc : l.length ≥ e
        · rw [if_pos hc] at h
          cases h
          simp [flatPos]
        · rw [if_neg hc] at h
          cases hq : findEndLeaf rest (e - l.length) with
          | none => rw [hq] at h; exact absurd h (by simp)
          | some q =>
            rw [hq] at h
            simp only [Option.map_some', Option.some.injEq] at h
            subst h
            have ihe := findEndLeaf_flatPos rest (e - l.length) q hq (by omega)
            constructor
            · simp [flatPos]
            · simp only [flatPos, List.take_succ_cons, List.map_cons, List.sum_cons]
              simp only [flatPos] at ihe
              omega
      · rw [if_neg hs] at h
        by_cases hc : l.length ≥ e
        · rw [if_pos hc] at h; exact absurd h (by simp)
        · rw [if_neg hc] at h
          cases hr : findRange rest (s - l.length) (e - l.length) with
          | none => rw [hr] at h; exact absurd h (by simp)
          | some r' =>
            rw [hr] at h
            simp only [Option.map_some', Option.some.injEq] at h
            subst h
            have ih := findRange_flatPos rest (s - l.length) (e - l.length) r' hr (by omega)
            constructor
            · simp only [flatPos, List.take_succ_cons, List.map_cons, List.sum_cons]
              simp only [flatPos] at ih
              omega
            · simp only [flatPos, List.take_succ_cons, List.map_cons, List.sum_cons]
              simp only [flatPos] at ih
              omega

/-- For a well-formed request (`s < e` within the flattened text) the walk
always finds both boundary nodes. -/
theorem findRange_isSome : ∀ (leaves : List Str) (s e : Nat),
    s < e → e ≤ (leaves.map List.length).sum → (findRange leaves s e).isSome
  | [], s, e, hse, hle => by simp at hle; omega
  | l :: rest, s, e, hse, hle => by
      simp only [findRange]
      simp only [List.map_cons, List.sum_cons] at hle
      by_cases hs : l.length > s
      · rw [if_pos hs]
        by_cases hc : l.length ≥ e
        · simp [hc]
        · rw [if_neg hc]
          have := findEndLeaf_isSome rest (e - l.length) (by omega) (by omega)
          cases hq : findEndLeaf rest (e - l.length) with
          | none => rw [hq] at this; simp at this
          | some q => simp
      · rw [if_neg hs]
        have hsl : l.length ≤ s := by omega
        rw [if_neg (by omega)]
        have := findRange_isSome rest (s - l.length) (e - l.length) (by omega) (by omega)
        cases hr : findRange rest (s - l.length) (e - l.length) with
        | none => rw [hr] at this; simp at this
        | some r' => simp

mutual
theorem flatten_splitBefore : ∀ (n : DNode) (a : Nat),
    flattenF (splitBefore n a) = (flatten n).take a
  | .text s, a => by simp [splitBefore, flattenF, flatten]
  | .elem t i h cs, a => by
      simp only [splitBefore, flattenF, flatten, List.append_nil]
      exact flatten_splitBeforeF cs a

theorem flatten_splitBeforeF : ∀ (cs : List DNode) (a : Nat),
    flattenF (splitBeforeF cs a) = (flattenF cs).take a
  | [], a => by simp [splitBeforeF, flattenF]
  | n :: ns, a => by
      simp only [splitBeforeF, flattenF_append, flattenF,
        flatten_splitBefore n a, flatten_splitBeforeF ns (a - (flatten n).length)]
      rw [List.take_append_eq_append_take]
end

mutual
theorem flatten_splitInside : ∀ (n : DNode) (a b : Nat),
    flattenF (splitInside n a b) = ((flatten n).drop a).take (b - a)
  | .text s, a, b => by simp [splitInside, flattenF, flatten]
  | .elem t i h cs, a, b => by
      simp only [splitInside, flattenF, flatten, List.append_nil]
      exact flatten_splitInsideF cs a b

theorem flatten_splitInsideF : ∀ (cs : List DNode) (a b : Nat),
    flattenF (splitInsideF cs a b) = ((flattenF cs).drop a).take (b - a)
  | [], a, b => by simp [splitInsideF, flattenF]
  | n :: ns, a, b => by
      have harith : (b - (flatten n).length) - (a - (flatten n).length)
          = (b - a) - ((flatten n).length - a) := by omega
      simp only [splitInsideF, flattenF_append, flattenF,
        flatten_splitInside n a b,
        flatten_splitInsideF ns (a - (flatten n).length) (b - (flatten n).length)]
      rw [List.drop_append_eq_append_drop, List.take_append_eq_append_take,
        List.length_drop, harith]
end

mutual
theorem flatten_splitAfter : ∀ (n : DNode) (a b : Nat),
    flattenF (splitAfter n a b) = (flatten n).drop (a + (b - a))
  | .text s, a, b => by simp [splitAfter, flattenF, flatten]
  | .elem t i h cs, a, b => by
      simp only [splitAfter, flattenF, flatten, List.append_nil]
      exact flatten_splitAfterF cs a b

theorem flatten_splitAfterF : ∀ (cs : List DNode) (a b : Nat),
    flattenF (splitAfterF cs a b) = (flattenF cs).drop (a + (b - a))
  | [], a, b => by simp [splitAfterF, flattenF]
  | n :: ns, a, b => by
      have harith : (a - (flatten n).length) + ((b - (flatten n).length) - (a - (flatten n).length))
          = (a + (b - a)) - (flatten n).length := by omega
      simp only [splitAfterF, flattenF_append, flattenF,
        flatten_splitAfter n a b,
        flatten_splitAfterF ns (a - (flatten n).length) (b - (flatten n).length)]
      rw [List.drop_append_eq_append_drop, harith]
end

/-- Recombining the three pieces of a flattened-offset split gives back the
original string. -/
theorem take_mid_drop (T : Str) (a b : Nat) :
    T.take a ++ ((T.drop a).take (b - a) ++ T.drop (a + (b - a))) = T := by
  have h1 : T.drop (a + (b - a)) = (T.drop a).drop (b - a) := by
    rw [List.drop_drop]
  rw [h1, List.take_append_drop, List.take_append_drop]

/-- Wrapping preserves the flattened text of the child forest. -/
theorem flatten_wrapForest (cs : List DNode) (a b : Nat) (hid : Str) :
    flattenF (wrapForest cs a b hid) = flattenF cs := by
  simp only [wrapForest, flattenF_append, flattenF, flatten,
    flatten_splitBeforeF, flatten_splitInsideF, flatten_splitAfterF,
    List.append_assoc]
  exact take_mid_drop (flattenF cs) a b

/-- Wrapping preserves the container's flattened text. -/
theorem flatten_wrapContainer (c : DNode) (a b : Nat) (hid : Str) :
    flatten (wrapContainer c a b hid) = flatten c := by
  cases c with
  | text s => simp [wrapContainer]
  | elem t i h cs => simp [wrapContainer, flatten, flatten_wrapForest]

/-- The wrapped forest carries the marker. -/
theorem containsMarkerF_wrapForest (cs : List DNode) (a b : Nat) (hid : Str) :
    containsMarkerF (wrapForest cs a b hid) hid = true := by
  simp [wrapForest, containsMarkerF_append, containsMarkerF, containsMarker]

mutual
theorem containsMarker_splitBefore : ∀ (n : DNode) (a : Nat) (hid : Str),
    containsMarker n hid = false → containsMarkerF (splitBefore n a) hid = false
  | .text s, a, hid, _ => by simp [splitBefore, containsMarkerF, containsMarker]
  | .elem t i h cs, a, hid, hc => by
      simp only [containsMarker, Bool.or_eq_false_iff, decide_eq_false_iff_not] at hc
      simp only [splitBefore, containsMarkerF, containsMarker, Bool.or_eq_false_iff,
        decide_eq_false_iff_not]
      exact ⟨⟨hc.1, containsMarker_splitBeforeF cs a hid hc.2⟩, trivial⟩

theorem containsMarker_splitBeforeF : ∀ (cs : List DNode) (a : Nat) (hid : Str),
    containsMarkerF cs hid = false → containsMarkerF (splitBeforeF cs a) hid = false
  | [], a, hid, _ => by simp [splitBeforeF, containsMarkerF]
  | n :: ns, a, hid, hc => by
      simp only [containsMarkerF, Bool.or_eq_false_iff] at hc
      simp only [splitBeforeF, containsMarkerF_append, Bool.or_eq_false_iff]
      exact ⟨containsMarker_splitBefore n a hid hc.1,
        containsMarker_splitBeforeF ns (a - (flatten n).length) hid hc.2⟩
end

mutual
theorem containsMarker_splitAfter : ∀ (n : DNode) (a b : Nat) (hid : Str),
    containsMarker n hid = false → containsMarkerF (splitAfter n a b) hid = false
  | .text s, a, b, hid, _ => by simp [splitAfter, containsMarkerF, containsMarker]
  | .elem t i h cs, a, b, hid, hc => by
      simp only [containsMarker, Bool.or_eq_false_iff, decide_eq_false_iff_not] at hc
      simp only [splitAfter, containsMarkerF, containsMarker, Bool.or_eq_false_iff,
        decide_eq_false_iff_not]
      exact ⟨⟨hc.1, containsMarker_splitAfterF cs a b hid hc.2⟩, trivial⟩

theorem containsMarker_splitAfterF : ∀ (cs : List DNode) (a b : Nat) (hid : Str),
    containsMarkerF cs hid = false → containsMarkerF (splitAfterF cs a b) hid = false
  | [], a, b, hid, _ => by simp [splitAfterF, containsMarkerF]
  | n :: ns, a, b, hid, hc => by
      simp only [containsMarkerF, Bool.or_eq_false_iff] at hc
      simp only [splitAfterF, containsMarkerF_append, Bool.or_eq_false_iff]
      exact ⟨containsMarker_splitAfter n a b hid hc.1,
        containsMarker_splitAfterF ns (a - (flatten n).length) (b - (flatten n).length) hid hc.2⟩
end

/-- In a previously marker-free container, the first marker after wrapping
is the freshly inserted `mark`, and its content is exactly the flattened
span `[a, b)` of the container's text. -/
theorem markedText_wrapContainer (t i : Str) (h : Option Str) (cs : List DNode)
    (a b : Nat) (hid : Str)
    (hc : containsMarker (.elem t i h cs) hid = false) :
    markedText (wrapContainer (.elem t i h cs) a b hid) hid
      = some (((flattenF cs).drop a).take (b - a)) := by
  simp only [containsMarker, Bool.or_eq_false_iff, decide_eq_false_iff_not] at hc
  simp only [wrapContainer, markedText, if_neg hc.1, wrapForest]
  rw [markedTextF_append]
  rw [markedTextF_eq_none _ hid (containsMarker_splitBeforeF cs a hid hc.2)]
  simp [markedTextF, markedText, flatten_splitInsideF]

theorem nodeAt_cons_elem {cs : List DNode} {k : Nat} {c : DNode} (t i : Str) (h : Option Str)
    (p : List Nat) (hg : cs.get? k = some c) :
    nodeAt (.elem t i h cs) (k :: p) = nodeAt c p := by
  simp only [nodeAt]
  rw [hg]

theorem nodeAt_cons_none {cs : List DNode} {k : Nat} (t i : Str) (h : Option Str)
    (p : List Nat) (hg : cs.get? k = none) :
    nodeAt (.elem t i h cs) (k :: p) = none := by
  simp only [nodeAt]
  rw [hg]

theorem pathParts_cons_elem {cs : List DNode} {k : Nat} {ct ci : Str} {ch : Option Str}
    {ccs : List DNode} (t i : Str) (h : Option Str) (rest : List Nat)
    (hg : cs.get? k = some (.elem ct ci ch ccs)) :
    pathParts (.elem t i h cs) (k :: rest)
      = (pathParts (.elem ct ci ch ccs) rest).map (fun ps => (ct, sameTagIndex cs k ct) :: ps) := by
  simp only [pathParts]
  rw [hg]

theorem pathParts_cons_text {cs : List DNode} {k : Nat} {s : Str} (t i : Str) (h : Option Str)
    (rest : List Nat) (hg : cs.get? k = some (.text s)) :
    pathParts (.elem t i h cs) (k :: rest) = none := by
  simp only [pathParts]
  rw [hg]

theorem pathParts_cons_none {cs : List DNode} {k : Nat} (t i : Str) (h : Option Str)
    (rest : List Nat) (hg : cs.get? k = none) :
    pathParts (.elem t i h cs) (k :: rest) = none := by
  simp only [pathParts]
  rw [hg]

theorem allIdsF_append (l₁ l₂ : List DNode) :
    allIdsF (l₁ ++ l₂) = allIdsF l₁ ++ allIdsF l₂ := by
  induction l₁ with
  | nil => simp [allIdsF]
  | cons n ns ih => simp [allIdsF, ih]

/-- Decoding `tag[index]` recovers the child index the step was built from. -/
theorem nthSameTag_sameTagIndex : ∀ (cs : List DNode) (k : Nat) (t i : Str)
    (h : Option Str) (ccs : List DNode),
    cs.get? k = some (.elem t i h ccs) →
    nthSameTag cs t (sameTagIndex cs k t) = some k
  | [], k, t, i, h, ccs, hg => by simp at hg
  | c :: cs, 0, t, i, h, ccs, hg => by
      simp only [List.get?_cons_zero, Option.some.injEq] at hg
      subst hg
      simp [nthSameTag, sameTagIndex, isElemWithTag]
  | c :: cs, Nat.succ k, t, i, h, ccs, hg => by
      simp only [List.get?_cons_succ] at hg
      have ih := nthSameTag_sameTagIndex cs k t i h ccs hg
      by_cases hc : isElemWithTag c t
      · have hidx : sameTagIndex (c :: cs) (k + 1) t = sameTagIndex cs k t + 1 := by
          simp [sameTagIndex, List.take_succ_cons, List.countP_cons, hc]
          omega
        rw [hidx]
        simp only [nthSameTag, hc, if_true]
        have hne : ¬ (sameTagIndex cs k t + 1 = 1) := by
          simp [sameTagIndex]
        rw [if_neg hne]
        simp [ih]
      · have hidx : sameTagIndex (c :: cs) (k + 1) t = sameTagIndex cs k t := by
          simp [sameTagIndex, List.take_succ_cons, List.countP_cons, hc]
        rw [hidx]
        simp only [nthSameTag, hc, if_false, Bool.false_eq_true]
        simp [ih]

/-- Decoding the structural steps recovers the child-index path. -/
theorem decodeParts_pathParts : ∀ (path : List Nat) (n tgt : DNode) (ps : List (Str × Nat)),
    nodeAt n path = some tgt → pathParts n path = some ps →
    decodeParts n ps = some path
  | [], n, tgt, ps, hn, hp => by
      simp only [pathParts, Option.some.injEq] at hp
      subst hp
      simp [decodeParts]
  | k :: rest, .text s, tgt, ps, hn, hp => by simp [nodeAt] at hn
  | k :: rest, .elem t i h cs, tgt, ps, hn, hp => by
      cases hg : cs.get? k with
      | none => rw [pathParts_cons_none t i h rest hg] at hp; exact absurd hp (by simp)
      | some c =>
        rw [nodeAt_cons_elem t i h rest hg] at hn
        cases c with
        | text s' => rw [pathParts_cons_text t i h rest hg] at hp; exact absurd hp (by simp)
        | elem ct ci ch ccs =>
          rw [pathParts_cons_elem t i h rest hg] at hp
          cases hps : pathParts (.elem ct ci ch ccs) rest with
          | none => rw [hps] at hp; exact absurd hp (by simp)
          | some ps' =>
            rw [hps] at hp
            simp only [Option.map_some', Option.some.injEq] at hp
            subst hp
            have ih := decodeParts_pathParts rest (.elem ct ci ch ccs) tgt ps' hn hps
            simp only [decodeParts]
            rw [nthSameTag_sameTagIndex cs k ct ci ch ccs hg]
            simp only []
            rw [hg]
            simp only []
            rw [ih]
            rfl

/-- The structural steps exist whenever the path leads to an element. -/
theorem pathParts_isSome : ∀ (path : List Nat) (n : DNode) (t i : Str)
    (h : Option Str) (cs : List DNode),
    nodeAt n path = some (.elem t i h cs) → ∃ ps, pathParts n path = some ps
  | [], n, t, i, h, cs, hn => ⟨[], by simp [pathParts]⟩
  | k :: rest, .text s, t, i, h, cs, hn => by simp [nodeAt] at hn
  | k :: rest, .elem nt ni nh ncs, t, i, h, cs, hn => by
      cases hg : ncs.get? k with
      | none => rw [nodeAt_cons_none nt ni nh rest hg] at hn; exact absurd hn (by simp)
      | some c =>
        rw [nodeAt_cons_elem nt ni nh rest hg] at hn
        cases c with
        | text s' =>
          cases rest with
          | nil => simp [nodeAt] at hn
          | cons k' r' => simp [nodeAt] at hn
        | elem ct ci ch ccs =>
          obtain ⟨ps', hps'⟩ := pathParts_isSome rest (.elem ct ci ch ccs) t i h cs hn
          refine ⟨(ct, sameTagIndex ncs k ct) :: ps', ?_⟩
          rw [pathParts_cons_elem nt ni nh rest hg, hps']
          rfl

theorem mem_allIdsF_of_get : ∀ (cs : List DNode) (k : Nat) (c : DNode),
    cs.get? k = some c → ∀ x, x ∈ allIds c → x ∈ allIdsF cs
  | [], k, c, hg => by simp at hg
  | n :: ns, 0, c, hg => by
      simp only [List.get?_cons_zero, Option.some.injEq] at hg
      subst hg
      intro x hx
      simp [allIdsF, hx]
  | n :: ns, Nat.succ k, c, hg => by
      simp only [List.get?_cons_succ] at hg
      intro x hx
      have := mem_allIdsF_of_get ns k c hg x hx
      simp [allIdsF, this]

theorem mem_allIds_of_nodeAt : ∀ (p : List Nat) (n : DNode) (t i : Str)
    (h : Option Str) (cs : List DNode),
    nodeAt n p = some (.elem t i h cs) → i ≠ [] → i ∈ allIds n
  | [], n, t, i, h, cs, hn, hi => by
      simp only [nodeAt, Option.some.injEq] at hn
      subst hn
      simp [allIds, hi]
  | k :: rest, .text s, t, i, h, cs, hn, hi => by simp [nodeAt] at hn
  | k :: rest, .elem nt ni nh ncs, t, i, h, cs, hn, hi => by
      cases hg : ncs.get? k with
      | none => rw [nodeAt_cons_none nt ni nh rest hg] at hn; exact absurd hn (by simp)
      | some c =>
        rw [nodeAt_cons_elem nt ni nh rest hg] at hn
        have ih := mem_allIds_of_nodeAt rest c t i h cs hn hi
        have := mem_allIdsF_of_get ncs k c hg i ih
        simp [allIds, this]

mutual
theorem findIdPath_eq_none : ∀ (n : DNode) (x : Str),
    x ∉ allIds n → x ≠ [] → findIdPath n x = none
  | .text s, x, _, _ => by simp [findIdPath]
  | .elem t ia h cs, x, hmem, hx => by
      simp only [allIds, List.mem_append] at hmem
      push_neg at hmem
      have hia : ¬ ia = x := by
        intro he
        subst he
        exact hmem.1 (by simp [if_neg hx])
      simp only [findIdPath, if_neg hia]
      exact findIdPathF_eq_none cs x 0 hmem.2 hx

theorem findIdPathF_eq_none : ∀ (cs : List DNode) (x : Str) (j : Nat),
    x ∉ allIdsF cs → x ≠ [] → findIdPathF cs x j = none
  | [], x, j, _, _ => by simp [findIdPathF]
  | n :: ns, x, j, hmem, hx => by
      simp only [allIdsF, List.mem_append] at hmem
      push_neg at hmem
      simp only [findIdPathF]
      rw [findIdPath_eq_none n x hmem.1 hx]
      exact findIdPathF_eq_none ns x (j + 1) hmem.2 hx
end

theorem findIdPathF_found : ∀ (cs : List DNode) (k : Nat) (c : DNode) (j : Nat)
    (i : Str) (q : List Nat),
    cs.get? k = some c →
    (∀ m d, m < k → cs.get? m = some d → findIdPath d i = none) →
    findIdPath c i = some q →
    findIdPathF cs i j = some ((j + k) :: q)
  | [], k, c, j, i, q, hg, _, _ => by simp at hg
  | n :: ns, 0, c, j, i, q, hg, _, hq => by
      simp only [List.get?_cons_zero, Option.some.injEq] at hg
      subst hg
      simp [findIdPathF, hq]
  | n :: ns, Nat.succ k, c, j, i, q, hg, hnone, hq => by
      simp only [List.get?_cons_succ] at hg
      have h0 : findIdPath n i = none := hnone 0 n (by omega) (by simp)
      simp only [findIdPathF, h0]
      have ih := findIdPathF_found ns k c (j + 1) i q hg
        (fun m d hm hgd => hnone (m + 1) d (by omega) (by simpa using hgd)) hq
      rw [ih]
      congr 2
      omega

/-- With document-unique ids, looking up the id of the element at `p`
finds exactly `p`. -/
theorem findIdPath_of_nodeAt : ∀ (p : List Nat) (n : DNode) (t i : Str)
    (h : Option Str) (cs : List DNode),
    nodeAt n p = some (.elem t i h cs) → i ≠ [] → (allIds n).Nodup →
    findIdPath n i = some p
  | [], n, t, i, h, cs, hn, hi, _ => by
      simp only [nodeAt, Option.some.injEq] at hn
      subst hn
      simp [findIdPath]
  | k :: rest, .text s, t, i, h, cs, hn, hi, _ => by simp [nodeAt] at hn
  | k :: rest, .elem nt ni nh ncs, t, i, h, cs, hn, hi, hnd => by
      cases hg : ncs.get? k with
      | none => rw [nodeAt_cons_none nt ni nh rest hg] at hn; exact absurd hn (by simp)
      | some c =>
        rw [nodeAt_cons_elem nt ni nh rest hg] at hn
        have himem : i ∈ allIds c := mem_allIds_of_nodeAt rest c t i h cs hn hi
        have himemF : i ∈ allIdsF ncs := mem_allIdsF_of_get ncs k c hg i himem
        have hndF : (allIdsF ncs).Nodup ∧ (if ni = [] then ([] : List Str) else [ni]).Disjoint (allIdsF ncs) := by
          simp only [allIds] at hnd
          have := List.nodup_append.mp hnd
          exact ⟨this.2.1, this.2.2⟩
        -- the root's own id differs from `i`
        have hne : ¬ ni = i := by
          intro he
          subst he
          have : ni ∈ (if ni = [] then ([] : List Str) else [ni]) := by
            simp [if_neg hi]
          exact hndF.2 this himemF
        -- nodup restricted to the child at `k`
        have hsplit := take_get_drop hg
        have hdecomp : allIdsF ncs
            = allIdsF (ncs.take k) ++ allIds c ++ allIdsF (ncs.drop (k + 1)) := by
          conv_lhs => rw [hsplit]
          simp [allIdsF_append, allIdsF]
        have hndc : (allIds c).Nodup := by
          have := hndF.1
          rw [hdecomp] at this
          exact ((List.nodup_append.mp ((List.nodup_append.mp this).1)).2).1
        have ih := findIdPath_of_nodeAt rest c t i h cs hn hi hndc
        -- siblings before `k` cannot carry `i`
        have hsib : ∀ m d, m < k → ncs.get? m = some d → findIdPath d i = none := by
          intro m d hm hgd
          apply findIdPath_eq_none d i _ hi
          intro hmem
          have hmemF : i ∈ allIdsF (ncs.take k) := by
            have hgt : (ncs.take k).get? m = some d := by
              rw [List.get?_eq_getElem?, List.getElem?_take_of_lt hm, ← List.get?_eq_getElem?]
              exact hgd
            exact mem_allIdsF_of_get (ncs.take k) m d hgt i hmem
          have := hndF.1
          rw [hdecomp] at this
          have hdisj := (List.nodup_append.mp ((List.nodup_append.mp this).1)).2.2
          exact hdisj hmemF himem
        simp only [findIdPath, if_neg hne]
        have := findIdPathF_found ncs k c 0 i rest hg hsib ih
        simpa using this

/-- Round trip of the locator codec on elements, given document-unique
ids: decoding the encoded path leads back to the same element. -/
theorem getElementByXPath_getXPath (root : DNode) (p : List Nat) (t i : Str)
    (h : Option Str) (cs : List DNode)
    (hn : nodeAt root p = some (.elem t i h cs))
    (hnd : (allIds root).Nodup) :
    getElementByXPath (getXPath root p) root = some p := by
  have hx : getXPath root p = getXPathOfElem root p := by
    simp only [getXPath, hn]
  rw [hx]
  simp only [getXPathOfElem, hn]
  by_cases hi : i = []
  · rw [if_neg (by simp [hi])]
    cases root with
    | text s =>
      cases p with
      | nil => simp [nodeAt] at hn
      | cons k r => simp [nodeAt] at hn
    | elem rt ri rh rcs =>
      obtain ⟨ps, hps⟩ := pathParts_isSome p (.elem rt ri rh rcs) t i h cs hn
      rw [hps]
      have hdp := decodeParts_pathParts p (.elem rt ri rh rcs) (.elem t i h cs) ps hn hps
      simp [getElementByXPath, hdp]
  · rw [if_pos (by simp [hi])]
    simp only [getElementByXPath]
    exact findIdPath_of_nodeAt p root t i h cs hn hi hnd

end DNode

namespace JsStr

theorem substring_of_nonneg (s : Str) (a b : Int) (h0 : 0 ≤ a) (hab : a ≤ b) :
    substring s a b = (s.drop a.toNat).take (b.toNat - a.toNat) := by
  have hb0 : 0 ≤ b := le_trans h0 hab
  simp only [substring, clampIdx]
  have hmaxa : max a 0 = a := max_eq_left h0
  have hmaxb : max b 0 = b := max_eq_left hb0
  rw [hmaxa, hmaxb]
  have ha' : (min a (s.length : Int)).toNat = min a.toNat s.length := by omega
  have hb' : (min b (s.length : Int)).toNat = min b.toNat s.length := by omega
  rw [ha', hb']
  have hmm : min (min a.toNat s.length) (min b.toNat s.length) = min a.toNat s.length := by
    omega
  have hmx : max (min a.toNat s.length) (min b.toNat s.length) = min b.toNat s.length := by
    omega
  rw [hmm, hmx]
  by_cases hc : a.toNat ≤ s.length
  · have hminA : min a.toNat s.length = a.toNat := min_eq_left hc
    rw [hminA]
    by_cases hd : b.toNat ≤ s.length
    · rw [min_eq_left hd]
    · have hminB : min b.toNat s.length = s.length := min_eq_right (by omega)
      rw [hminB]
      have hlen : (s.drop a.toNat).length = s.length - a.toNat := List.length_drop ..
      rw [List.take_of_length_le (by omega), List.take_of_length_le (by omega)]
  · have hminA : min a.toNat s.length = s.length := min_eq_right (by omega)
    have hminB : min b.toNat s.length = s.length := min_eq_right (by omega)
    rw [hminA, hminB]
    rw [List.drop_of_length_le (by omega), List.drop_of_length_le (by omega)]
    simp

theorem substring_zero_neg_one (s : Str) : substring s 0 (-1) = [] := by
  simp only [substring, clampIdx]
  have h1 : (min (max (0 : Int) 0) (s.length : Int)).toNat = 0 := by omega
  have h2 : (min (max (-1 : Int) 0) (s.length : Int)).toNat = 0 := by omega
  rw [h1, h2]
  simp

theorem trim_length_le (s : Str) : (trim s).length ≤ s.length := by
  simp only [trim]
  calc ((s.dropWhile Char.isWhitespace).reverse.dropWhile Char.isWhitespace).reverse.length
      = ((s.dropWhile Char.isWhitespace).reverse.dropWhile Char.isWhitespace).length := by
        exact List.length_reverse ..
    _ ≤ (s.dropWhile Char.isWhitespace).reverse.length := (List.dropWhile_sublist _).length_le
    _ = (s.dropWhile Char.isWhitespace).length := List.length_reverse ..
    _ ≤ s.length := (List.dropWhile_sublist _).length_le

end JsStr

/-- Characterization of a successful capture: the descriptor's anchoring
fields in terms of the selection observations. -/
theorem createHighlight_fields (sel : SelectionModel) (root : DNode) (freshId : Str)
    (now : Nat) (d : HighlightPosition)
    (h : createHighlightFromSelection sel root freshId now = some d) :
    d.text = JsStr.trim sel.raw ∧
    d.xpath = getXPath root sel.containerPath ∧
    d.startOffset = sel.startFlat ∧
    d.endOffset = sel.startFlat + (JsStr.trim sel.raw).length ∧
    d.id = freshId := by
  by_cases hg1 : sel.rangeCount = 0 ∨ sel.isCollapsed = true
  · rw [createHighlightFromSelection, if_pos (by simpa using hg1)] at h
    exact absurd h (by simp)
  · by_cases hg2 : JsStr.trim sel.raw = []
    · rw [createHighlightFromSelection, if_neg (by simpa using hg1)] at h
      simp only [hg2, if_pos rfl] at h
      exact absurd h (by simp)
    · rw [createHighlightFromSelection, if_neg (by simpa using hg1)] at h
      simp only [if_neg hg2] at h
      rw [← Option.some_inj.mp h]
      exact ⟨rfl, rfl, rfl, rfl, rfl⟩

/-- C8: `createHighlightFromSelection` returns `null` — a plain no-op
return rather than an exception (the embedding is a total function whose
guards run before the range access) — for every selection that is empty
(`rangeCount = 0`), collapsed, or whose trimmed text is empty, so no
descriptor is produced for such selections. -/
theorem claim_C8 (sel : SelectionModel) (root : DNode) (freshId : Str) (now : Nat)
    (h : sel.rangeCount = 0 ∨ sel.isCollapsed = true ∨ JsStr.trim sel.raw = []) :
    createHighlightFromSelection sel root freshId now = none := by
  rcases h with h | h | h
  · simp [createHighlightFromSelection, h]
  · simp [createHighlightFromSelection, h]
  · rw [createHighlightFromSelection]
    split
    · rfl
    · simp [h]

theorem claim_C8_witness :
    ((1 : Nat) = 0 ∨ (true : Bool) = true ∨ JsStr.trim ('a' :: []) = []) ∧
    createHighlightFromSelection ⟨1, true, 'a' :: [], [], 0⟩ (.text []) ('i' :: []) 0 = none :=
  ⟨Or.inr (Or.inl rfl), claim_C8 ⟨1, true, 'a' :: [], [], 0⟩ (.text []) ('i' :: []) 0
    (Or.inr (Or.inl rfl))⟩

/-- C10: when the trimmed selection text does not occur as a literal
substring of the container's `textContent` at capture time (`indexOf`
returns `-1`), `createHighlightFromSelection` still returns a descriptor
rather than `null`, and that descriptor's `beforeContext` is the empty
string while its `afterContext` is taken from the container text starting
at index `text.length - 1` — the context fields no longer describe the
text adjacent to the selection. -/
theorem claim_C10 (sel : SelectionModel) (root : DNode) (freshId : Str) (now : Nat)
    (hg1 : ¬ (sel.rangeCount = 0 ∨ sel.isCollapsed = true))
    (hg2 : ¬ JsStr.trim sel.raw = [])
    (hfind : JsStr.indexOf (flatten ((nodeAt root sel.containerPath).getD (.text [])))
        (JsStr.trim sel.raw) = none) :
    ∃ d, createHighlightFromSelection sel root freshId now = some d ∧
      d.beforeContext = [] ∧
      d.afterContext = ((flatten ((nodeAt root sel.containerPath).getD (.text []))).drop
        ((JsStr.trim sel.raw).length - 1)).take 50 := by
  have hlen : 1 ≤ (JsStr.trim sel.raw).length := by
    cases hT : JsStr.trim sel.raw with
    | nil => exact absurd hT hg2
    | cons c cs => simp [hT]
  rw [createHighlightFromSelection, if_neg (by simpa using hg1)]
  simp only [if_neg hg2, hfind]
  refine ⟨_, rfl, ?_, ?_⟩
  · have hmax : max (0 : Int) (-1 - 50) = 0 := by norm_num
    simp only [hmax, JsStr.substring_zero_neg_one]
  · have h1 : (0 : Int) ≤ -1 + ((JsStr.trim sel.raw).length : Int) := by omega
    have h2 : -1 + ((JsStr.trim sel.raw).length : Int)
        ≤ -1 + ((JsStr.trim sel.raw).length : Int) + 50 := by omega
    have e1 : (-1 + ((JsStr.trim sel.raw).length : Int)).toNat
        = (JsStr.trim sel.raw).length - 1 := by omega
    have e2 : (-1 + ((JsStr.trim sel.raw).length : Int) + 50).toNat
        - (-1 + ((JsStr.trim sel.raw).length : Int)).toNat = 50 := by omega
    simp only [JsStr.substring_of_nonneg _ _ _ h1 h2, e1, e2]
    congr 1
    omega

theorem claim_C10_witness :
    (¬ (exSelABC.rangeCount = 0 ∨ exSelABC.isCollapsed = true)) ∧
    (¬ JsStr.trim "ab".toList = []) ∧
    JsStr.indexOf (flatten ((nodeAt exDocXyz ([] : List Nat)).getD (.text [])))
      (JsStr.trim "ab".toList) = none ∧
    (∃ d, createHighlightFromSelection ⟨1, false, "ab".toList, [], 0⟩ exDocXyz "i".toList 0
        = some d ∧
      d.beforeContext = [] ∧
      d.afterContext = ((flatten ((nodeAt exDocXyz ([] : List Nat)).getD (.text []))).drop
        ((JsStr.trim "ab".toList).length - 1)).take 50) :=
  ⟨by decide, by decide, by decide,
    claim_C10 ⟨1, false, "ab".toList, [], 0⟩ exDocXyz "i".toList 0
      (by decide) (by decide) (by decide)⟩

/-- A successful capture implies the guards passed. -/
theorem createHighlight_guards (sel : SelectionModel) (root : DNode) (freshId : Str)
    (now : Nat) (d : HighlightPosition)
    (h : createHighlightFromSelection sel root freshId now = some d) :
    ¬ (sel.rangeCount = 0 ∨ sel.isCollapsed = true) ∧ ¬ JsStr.trim sel.raw = [] := by
  by_cases hg1 : sel.rangeCount = 0 ∨ sel.isCollapsed = true
  · rw [createHighlightFromSelection, if_pos (by simpa using hg1)] at h
    exact absurd h (by simp)
  · by_cases hg2 : JsStr.trim sel.raw = []
    · rw [createHighlightFromSelection, if_neg (by simpa using hg1)] at h
      simp only [hg2, if_pos rfl] at h
      exact absurd h (by simp)
    · exact ⟨hg1, hg2⟩

/-- The trimmed text read back from the raw selection text, when the
trimmed text is a prefix of it (no leading whitespace) and the raw text
is the flattened span at the captured offsets. -/
theorem trim_slice_eq (T raw : Str) (s : Nat)
    (hraw : raw = (T.drop s).take raw.length)
    (hpre : JsStr.trim raw <+: raw) :
    (T.drop s).take (JsStr.trim raw).length = JsStr.trim raw := by
  have htake : JsStr.trim raw = raw.take (JsStr.trim raw).length :=
    List.prefix_iff_eq_take.mp hpre
  have hlen : (JsStr.trim raw).length ≤ raw.length := JsStr.trim_length_le raw
  calc (T.drop s).take (JsStr.trim raw).length
      = ((T.drop s).take raw.length).take (JsStr.trim raw).length := by
        rw [List.take_take, min_eq_left hlen]
    _ = raw.take (JsStr.trim raw).length := by rw [← hraw]
    _ = JsStr.trim raw := htake.symm

/-- C4 (amended): every captured descriptor satisfies
`0 ≤ startOffset < endOffset`; and — when the selection's common
ancestor container is an element, the raw selection text is the
flattened span of the container at the captured offsets
(`Selection.toString` agreeing with `Range.toString`), the raw text
carries no leading whitespace (its trim is a prefix of it), and ids are
document-unique — the `text` field equals the substring
`[startOffset, endOffset)` of the flattened text of the container
identified by the descriptor's structural path.  (The claim as frozen
asserts the substring equality for every capture; it fails when the raw
selection text starts with whitespace, see the counterexample.) -/
theorem claim_C4 (sel : SelectionModel) (root : DNode) (freshId : Str) (now : Nat)
    (d : HighlightPosition) (t i : Str) (oh : Option Str) (cs : List DNode)
    (hcap : createHighlightFromSelection sel root freshId now = some d)
    (hcont : nodeAt root sel.containerPath = some (.elem t i oh cs))
    (hraw : sel.raw = ((flatten (.elem t i oh cs)).drop sel.startFlat).take sel.raw.length)
    (hpre : JsStr.trim sel.raw <+: sel.raw)
    (hnd : (allIds root).Nodup) :
    0 ≤ d.startOffset ∧ d.startOffset < d.endOffset ∧
    ∃ c, getElementByXPath d.xpath root = some sel.containerPath ∧
      nodeAt root sel.containerPath = some c ∧
      ((flatten c).drop d.startOffset).take (d.endOffset - d.startOffset) = d.text := by
  obtain ⟨htext, hxp, hso, heo, _⟩ :=
    createHighlight_fields sel root freshId now d hcap
  obtain ⟨_, hg2⟩ := createHighlight_guards sel root freshId now d hcap
  have hlen : 1 ≤ (JsStr.trim sel.raw).length := by
    cases hT : JsStr.trim sel.raw with
    | nil => exact absurd hT hg2
    | cons c cs => simp [hT]
  refine ⟨Nat.zero_le _, by omega, .elem t i oh cs, ?_, hcont, ?_⟩
  · rw [hxp]
    have hx : getXPath root sel.containerPath = getXPathOfElem root sel.containerPath := by
      simp only [getXPath, hcont]
    rw [hx, ← hx]
    exact getElementByXPath_getXPath root sel.containerPath t i oh cs hcont hnd
  · rw [hso, heo, htext]
    have : sel.startFlat + (JsStr.trim sel.raw).length - sel.startFlat
        = (JsStr.trim sel.raw).length := by omega
    rw [this]
    exact trim_slice_eq (flatten (.elem t i oh cs)) sel.raw sel.startFlat hraw hpre

theorem claim_C4_witness :
    createHighlightFromSelection exSelBC exDocABC "h2".toList 0 = some exDescBC ∧
    nodeAt exDocABC exSelBC.containerPath = some exDocABC ∧
    exSelBC.raw = ((flatten exDocABC).drop exSelBC.startFlat).take exSelBC.raw.length ∧
    (JsStr.trim exSelBC.raw <+: exSelBC.raw) ∧
    (allIds exDocABC).Nodup ∧
    (0 ≤ exDescBC.startOffset ∧ exDescBC.startOffset < exDescBC.endOffset ∧
      ∃ c, getElementByXPath exDescBC.xpath exDocABC = some exSelBC.containerPath ∧
        nodeAt exDocABC exSelBC.containerPath = some c ∧
        ((flatten c).drop exDescBC.startOffset).take
          (exDescBC.endOffset - exDescBC.startOffset) = exDescBC.text) :=
  ⟨rfl, rfl, by decide, ⟨[], rfl⟩, by decide,
    claim_C4 exSelBC exDocABC "h2".toList 0 exDescBC "html".toList [] none
      [.text "a bc".toList] rfl rfl (by decide) ⟨[], rfl⟩ (by decide)⟩

/-- C4 as frozen is violated by a selection whose raw text starts with
whitespace: capturing ` bc` in the document with text `a bc` yields a
descriptor whose `text` is `bc` but whose offsets `[1, 3)` cover ` b` in
the container its structural path identifies; the selection itself is a
genuine one (its raw text is exactly the flattened span at the
offsets). -/
theorem claim_C4_counterexample :
    createHighlightFromSelection exSelABC exDocABC "h1".toList 0 = some exDescC4 ∧
    exSelABC.raw = ((flatten exDocABC).drop exSelABC.startFlat).take exSelABC.raw.length ∧
    getElementByXPath exDescC4.xpath exDocABC = some [] ∧
    nodeAt exDocABC [] = some exDocABC ∧
    ((flatten exDocABC).drop exDescC4.startOffset).take
      (exDescC4.endOffset - exDescC4.startOffset) ≠ exDescC4.text := by
  refine ⟨rfl, by decide, by decide, rfl, by decide⟩

/-- Every position collected by the occurrence loop is at or after the
search start. -/
theorem findAllMatchesAux_ge (containerText needle : Str) : ∀ (fuel start : Nat),
    ∀ x ∈ findAllMatchesAux containerText needle fuel start, start ≤ x
  | 0, start => by simp [findAllMatchesAux]
  | Nat.succ fuel, start => by
    intro x hx
    rw [findAllMatchesAux] at hx
    cases h : JsStr.indexOfFrom containerText needle start with
    | none => rw [h] at hx; simp at hx
    | some j =>
      rw [h] at hx
      rcases List.mem_cons.mp hx with rfl | hx'
      · exact (JsStr.indexOfFrom_some h).1
      · have h1 := (JsStr.indexOfFrom_some h).1
        have := findAllMatchesAux_ge containerText needle fuel (j + 1) x hx'
        omega

/-- The occurrence list is strictly increasing. -/
theorem findAllMatchesAux_pairwise (containerText needle : Str) : ∀ (fuel start : Nat),
    (findAllMatchesAux containerText needle fuel start).Pairwise (· < ·)
  | 0, start => by simp [findAllMatchesAux]
  | Nat.succ fuel, start => by
    rw [findAllMatchesAux]
    cases h : JsStr.indexOfFrom containerText needle start with
    | none => simp
    | some j =>
      refine List.pairwise_cons.mpr ⟨?_, findAllMatchesAux_pairwise containerText needle fuel (j + 1)⟩
      intro x hx
      have := findAllMatchesAux_ge containerText needle fuel (j + 1) x hx
      omega

/-- With enough fuel the loop collects exactly the occurrence positions
at or after the search start. -/
theorem mem_findAllMatchesAux (containerText needle : Str) : ∀ (fuel start : Nat),
    containerText.length + 1 - start ≤ fuel →
    ∀ x, x ∈ findAllMatchesAux containerText needle fuel start ↔
      (start ≤ x ∧ x ≤ containerText.length ∧ needle <+: containerText.drop x)
  | 0, start => by
    intro hf x
    simp only [findAllMatchesAux, List.not_mem_nil, false_iff]
    intro ⟨h1, h2, h3⟩
    omega
  | Nat.succ fuel, start => by
    intro hf x
    rw [findAllMatchesAux]
    cases h : JsStr.indexOfFrom containerText needle start with
    | none =>
      simp only [List.not_mem_nil, false_iff]
      intro ⟨h1, h2, h3⟩
      exact JsStr.indexOfFrom_none h x h1 h2 h3
    | some j =>
      have h1 := (JsStr.indexOfFrom_some h).1
      have h2 := JsStr.indexOfFrom_some_le h
      have ih := mem_findAllMatchesAux containerText needle fuel (j + 1) (by omega)
      constructor
      · intro hx
        rcases List.mem_cons.mp hx with rfl | hx'
        · exact ⟨h1, h2, (JsStr.indexOfFrom_some h).2⟩
        · have := (ih x).mp hx'
          exact ⟨by omega, this.2.1, this.2.2⟩
      · intro ⟨hx1, hx2, hx3⟩
        by_cases hxj : x = j
        · subst hxj; exact List.mem_cons_self ..
        · have : j ≤ x := by
            by_contra hlt
            exact JsStr.indexOfFrom_min h x hx1 (by omega) hx3
          exact List.mem_cons_of_mem _ ((ih x).mpr ⟨by omega, hx2, hx3⟩)

/-- `findAllMatchesFrom` spec: see `mem_findAllMatchesAux`. -/
theorem mem_findAllMatchesFrom (containerText needle : Str) (start : Nat) :
    ∀ x, x ∈ findAllMatchesFrom containerText needle start ↔
      (start ≤ x ∧ x ≤ containerText.length ∧ needle <+: containerText.drop x) :=
  mem_findAllMatchesAux containerText needle (containerText.length + 1 - start) start le_rfl

/-- `findAllMatchesFrom` produces a strictly increasing list. -/
theorem findAllMatchesFrom_pairwise (containerText needle : Str) (start : Nat) :
    (findAllMatchesFrom containerText needle start).Pairwise (· < ·) :=
  findAllMatchesAux_pairwise containerText needle (containerText.length + 1 - start) start

/-- Distance of an occurrence position to the stored start offset. -/
def distTo (s0 x : Nat) : Nat := ((x : Int) - (s0 : Int)).natAbs

theorem foldl_closerTo_mem (s0 : Nat) : ∀ (ms : List Nat) (m : Nat),
    ms.foldl (closerTo s0) m ∈ m :: ms
  | [], m => by simp
  | c :: ms, m => by
    simp only [List.foldl_cons]
    have := foldl_closerTo_mem s0 ms (closerTo s0 m c)
    rcases List.mem_cons.mp this with he | hm
    · rw [he]
      by_cases hc : ((c : Int) - (s0 : Int)).natAbs < ((m : Int) - (s0 : Int)).natAbs <;>
        simp [closerTo, hc]
    · simp [hm]

theorem foldl_closerTo_min (s0 : Nat) : ∀ (ms : List Nat) (m : Nat),
    ∀ x ∈ m :: ms, distTo s0 (ms.foldl (closerTo s0) m) ≤ distTo s0 x
  | [], m => by simp [distTo]
  | c :: ms, m => by
    intro x hx
    simp only [List.foldl_cons]
    have hstep : distTo s0 (closerTo s0 m c) ≤ distTo s0 m
        ∧ distTo s0 (closerTo s0 m c) ≤ distTo s0 c := by
      by_cases hc : ((c : Int) - (s0 : Int)).natAbs < ((m : Int) - (s0 : Int)).natAbs <;>
        simp [closerTo, hc, distTo] <;> omega
    have hacc : distTo s0 (List.foldl (closerTo s0) (closerTo s0 m c) ms)
        ≤ distTo s0 (closerTo s0 m c) :=
      foldl_closerTo_min s0 ms (closerTo s0 m c) _ (List.mem_cons_self ..)
    rcases List.mem_cons.mp hx with he | hx'
    · rw [he]; omega
    · rcases List.mem_cons.mp hx' with he | hx''
      · rw [he]; omega
      · exact foldl_closerTo_min s0 ms (closerTo s0 m c) x (List.mem_cons_of_mem _ hx'')

/-- On ties the reduce keeps the earlier occurrence, so with a strictly
increasing occurrence list the result is the lowest offset among the
closest occurrences. -/
theorem foldl_closerTo_first (s0 : Nat) : ∀ (ms : List Nat) (m : Nat),
    (m :: ms).Pairwise (· < ·) →
    ∀ x ∈ m :: ms, distTo s0 x = distTo s0 (ms.foldl (closerTo s0) m) →
      ms.foldl (closerTo s0) m ≤ x
  | [], m, _, x, hx, _ => by
    simp only [List.mem_singleton] at hx
    subst hx
    simp
  | c :: ms, m, hpw, x, hx, htie => by
    simp only [List.foldl_cons] at htie ⊢
    have hpw' : (closerTo s0 m c :: ms).Pairwise (· < ·) := by
      rcases List.pairwise_cons.mp hpw with ⟨hm, hpc⟩
      rcases List.pairwise_cons.mp hpc with ⟨hc, hms⟩
      refine List.pairwise_cons.mpr ⟨?_, hms⟩
      intro y hy
      by_cases hcc : ((c : Int) - (s0 : Int)).natAbs < ((m : Int) - (s0 : Int)).natAbs
      · simpa [closerTo, hcc] using hc y hy
      · have : m < c := hm c (List.mem_cons_self ..)
        have := hc y hy
        simp only [closerTo, hcc, if_false]
        have := hm y (List.mem_cons_of_mem _ hy)
        simpa using this
    rcases List.mem_cons.mp hx with rfl | hx'
    · -- x is the old accumulator
      by_cases hcc : ((c : Int) - (s0 : Int)).natAbs < ((x : Int) - (s0 : Int)).natAbs
      · -- the accumulator was replaced: the result is strictly closer than x
        have hmin := foldl_closerTo_min s0 ms (closerTo s0 x c) (closerTo s0 x c)
          (List.mem_cons_self ..)
        have : distTo s0 (closerTo s0 x c) = distTo s0 c := by simp [closerTo, hcc, distTo]
        rw [this] at hmin
        exfalso
        have : distTo s0 c < distTo s0 x := hcc
        omega
      · have : closerTo s0 x c = x := by simp [closerTo, hcc]
        rw [this] at htie ⊢
        exact foldl_closerTo_first s0 ms x (by simpa [this] using hpw') x
          (List.mem_cons_self ..) htie
    · rcases List.mem_cons.mp hx' with rfl | hx''
      · -- x = c, the new element
        by_cases hcc : ((x : Int) - (s0 : Int)).natAbs < ((m : Int) - (s0 : Int)).natAbs
        · have : closerTo s0 m x = x := by simp [closerTo, hcc]
          rw [this] at htie ⊢
          exact foldl_closerTo_first s0 ms x (by simpa [this] using hpw') x
            (List.mem_cons_self ..) htie
        · -- the accumulator was kept; a tie with x means the result ties with m too
          have hkeep : closerTo s0 m x = m := by simp [closerTo, hcc]
          rw [hkeep] at htie ⊢
          have hmin := foldl_closerTo_min s0 ms m m (List.mem_cons_self ..)
          have hmx : m < x := (List.pairwise_cons.mp hpw).1 x (List.mem_cons_self ..)
          have hres := foldl_closerTo_first s0 ms m (by simpa [hkeep] using hpw') m
            (List.mem_cons_self ..)
          -- distances: d res ≤ d m ≤ d x = d res forces d m = d res
          have heq : distTo s0 m = distTo s0 (List.foldl (closerTo s0) m ms) := by
            have : distTo s0 x = distTo s0 (List.foldl (closerTo s0) m ms) := htie
            simp only [distTo] at *
            omega
          have := hres heq
          omega
      · exact foldl_closerTo_first s0 ms (closerTo s0 m c) hpw' x
          (List.mem_cons_of_mem _ hx'') htie

/-- The flattened length is the total length of the text leaves. -/
theorem flatten_length_eq (c : DNode) :
    (flatten c).length = ((textLeaves c).map List.length).sum := by
  rw [flatten_eq_leaves]
  exact List.length_flatten _

/-- C2: in the last-resort tier (both context searches failed), when the
container's flattened text contains at least one occurrence of the
descriptor text, resolution picks the occurrence minimizing the absolute
distance to the stored `startOffset`, with ties going to the lower
offset (strict `<` in the reduce), and marks that occurrence; with no
occurrence it fails, leaving the document unchanged. -/
theorem claim_C2 (cpath : List Nat) (pos : HighlightPosition) (root container : DNode)
    (hc : nodeAt root cpath = some container)
    (htext : pos.text ≠ [])
    (hctx1 : JsStr.indexOf (flatten container)
        (pos.beforeContext ++ pos.text ++ pos.afterContext) = none)
    (hctx2 : JsStr.indexOf (flatten container)
        (JsStr.sliceLast pos.beforeContext 20 ++ pos.text
          ++ JsStr.sliceTake pos.afterContext 20) = none) :
    (findAllMatches (flatten container) pos.text = [] →
      applyHighlightByContext cpath pos root = (false, root)) ∧
    (findAllMatches (flatten container) pos.text ≠ [] →
      ∃ chosen, computeTextStart (flatten container) pos = some chosen ∧
        chosen ∈ findAllMatches (flatten container) pos.text ∧
        (∀ x ∈ findAllMatches (flatten container) pos.text,
          distTo pos.startOffset chosen ≤ distTo pos.startOffset x) ∧
        (∀ x ∈ findAllMatches (flatten container) pos.text,
          distTo pos.startOffset x = distTo pos.startOffset chosen → chosen ≤ x) ∧
        applyHighlightByContext cpath pos root =
          (true, setAtPath root cpath
            (wrapContainer container chosen (chosen + pos.text.length) pos.id))) := by
  have hlen : 1 ≤ pos.text.length := by
    cases hT : pos.text with
    | nil => exact absurd hT htext
    | cons a as => simp [hT]
  constructor
  · intro hempty
    have hcts : computeTextStart (flatten container) pos = none := by
      simp only [computeTextStart, hctx1, hctx2, hempty]
    simp only [applyHighlightByContext, hc, Option.getD_some, hcts]
  · intro hne
    cases hm : findAllMatches (flatten container) pos.text with
    | nil => exact absurd hm hne
    | cons m ms =>
      set chosen := ms.foldl (closerTo pos.startOffset) m with hch
      have hcts : computeTextStart (flatten container) pos = some chosen := by
        simp only [computeTextStart, hctx1, hctx2, hm]
      have hmem : chosen ∈ m :: ms := foldl_closerTo_mem pos.startOffset ms m
      have hocc := (mem_findAllMatchesFrom (flatten container) pos.text 0 chosen).mp
        (by rw [show findAllMatchesFrom (flatten container) pos.text 0 = m :: ms from hm]
            exact hmem)
      have hbound : chosen + pos.text.length ≤ (flatten container).length :=
        JsStr.occurrence_length hocc.2.1 hocc.2.2
      have hrange : (findRange (textLeaves container) chosen
          (chosen + pos.text.length)).isSome := by
        apply findRange_isSome
        · omega
        · rw [← flatten_length_eq]
          omega
      refine ⟨chosen, hcts, hmem, ?_, ?_, ?_⟩
      · intro x hx
        exact foldl_closerTo_min pos.startOffset ms m x hx
      · intro x hx
        exact fun ht => foldl_closerTo_first pos.startOffset ms m
          (by rw [← hm]; exact findAllMatchesFrom_pairwise ..) x hx ht
      · cases hr : findRange (textLeaves container) chosen (chosen + pos.text.length) with
        | none => rw [hr] at hrange; exact absurd hrange (by simp)
        | some r =>
          simp only [applyHighlightByContext, hc, Option.getD_some, hcts, hr]

set_option maxRecDepth 40000 in
theorem claim_C2_witness :
    nodeAt exDocC2 ([] : List Nat) = some exDocC2 ∧
    exPosC2.text ≠ [] ∧
    JsStr.indexOf (flatten exDocC2)
      (exPosC2.beforeContext ++ exPosC2.text ++ exPosC2.afterContext) = none ∧
    JsStr.indexOf (flatten exDocC2)
      (JsStr.sliceLast exPosC2.beforeContext 20 ++ exPosC2.text
        ++ JsStr.sliceTake exPosC2.afterContext 20) = none ∧
    findAllMatches (flatten exDocC2) exPosC2.text = [10, 200] ∧
    computeTextStart (flatten exDocC2) exPosC2 = some 10 ∧
    (findAllMatches (flatten exDocC2) exPosC2.text ≠ [] →
      ∃ chosen, computeTextStart (flatten exDocC2) exPosC2 = some chosen ∧
        chosen ∈ findAllMatches (flatten exDocC2) exPosC2.text ∧
        (∀ x ∈ findAllMatches (flatten exDocC2) exPosC2.text,
          distTo exPosC2.startOffset chosen ≤ distTo exPosC2.startOffset x) ∧
        (∀ x ∈ findAllMatches (flatten exDocC2) exPosC2.text,
          distTo exPosC2.startOffset x = distTo exPosC2.startOffset chosen → chosen ≤ x) ∧
        applyHighlightByContext [] exPosC2 exDocC2 =
          (true, setAtPath exDocC2 []
            (wrapContainer exDocC2 chosen (chosen + exPosC2.text.length) exPosC2.id))) :=
  ⟨rfl, by decide, by decide, by decide, by decide, by decide,
    (claim_C2 [] exPosC2 exDocC2 exDocC2 rfl (by decide) (by decide) (by decide)).2⟩

/-- The context fallback never mutates the document when it fails. -/
theorem applyHighlightByContext_false (cpath : List Nat) (pos : HighlightPosition)
    (root : DNode) :
    (applyHighlightByContext cpath pos root).1 = false →
    (applyHighlightByContext cpath pos root).2 = root := by
  simp only [applyHighlightByContext]
  split
  · simp
  · split
    · simp
    · simp

/-- C3: whenever `applyHighlight` reports failure, the document tree is
completely unchanged — every failing branch returns before any marker
insertion or content extraction, so resolution is atomic. -/
theorem claim_C3 (pos : HighlightPosition) (root : DNode)
    (h : (applyHighlight pos root).1 = false) :
    (applyHighlight pos root).2 = root := by
  by_cases hmark : containsMarker root pos.id = true
  · rw [applyHighlight, if_pos hmark] at h
    simp at h
  · rw [applyHighlight, if_neg hmark] at h ⊢
    cases hdec : getElementByXPath pos.xpath root with
    | none =>
      rw [hdec] at h
      exact applyHighlightByContext_false [] pos root h
    | some cpath =>
      rw [hdec] at h
      simp only [] at h ⊢
      cases hr : findRange (textLeaves ((nodeAt root cpath).getD (.text [])))
          pos.startOffset pos.endOffset with
      | none =>
        rw [hr] at h
        exact applyHighlightByContext_false cpath pos root h
      | some r =>
        rw [hr] at h
        simp only [] at h ⊢
        by_cases hrt : rangeText (textLeaves ((nodeAt root cpath).getD (.text []))) r
            = pos.text
        · rw [if_pos hrt] at h
          simp at h
        · rw [if_neg hrt] at h ⊢
          exact applyHighlightByContext_false cpath pos root h

theorem claim_C3_witness :
    (applyHighlight exPosFail exDocXyz).1 = false ∧
    (applyHighlight exPosFail exDocXyz).2 = exDocXyz :=
  ⟨by decide, claim_C3 exPosFail exDocXyz (by decide)⟩

namespace DNode

/-- Writing back the node already present at a valid path is the
identity. -/
theorem setAtPath_self : ∀ (p : List Nat) (n c : DNode),
    nodeAt n p = some c → setAtPath n p c = n
  | [], n, c, h => by
      simp only [nodeAt, Option.some.injEq] at h
      subst h
      simp [setAtPath]
  | k :: p, .text s, c, h => by simp [nodeAt] at h
  | k :: p, .elem t i hh cs, c, h => by
      cases hg : cs.get? k with
      | none => rw [nodeAt_cons_none t i hh p hg] at h; exact absurd h (by simp)
      | some ch =>
        rw [nodeAt_cons_elem t i hh p hg] at h
        have ih := setAtPath_self p ch c h
        simp only [setAtPath]
        rw [setChild_eq cs k p c, hg]
        simp only []
        rw [ih]
        conv_rhs => rw [take_get_drop hg]

/-- Writing at an invalid path leaves the tree unchanged. -/
theorem setAtPath_invalid : ∀ (p : List Nat) (n new : DNode),
    nodeAt n p = none → setAtPath n p new = n
  | [], n, new, h => by simp [nodeAt] at h
  | k :: p, .text s, new, h => by simp [setAtPath]
  | k :: p, .elem t i hh cs, new, h => by
      cases hg : cs.get? k with
      | none =>
        simp only [setAtPath]
        rw [setChild_eq cs k p new, hg]
        have hk : cs.length ≤ k := List.get?_eq_none.mp hg
        simp only []
        rw [List.take_of_length_le hk, List.drop_eq_nil_of_le (by omega)]
        simp
      | some ch =>
        rw [nodeAt_cons_elem t i hh p hg] at h
        have ih := setAtPath_invalid p ch new h
        simp only [setAtPath]
        rw [setChild_eq cs k p new, hg]
        simp only []
        rw [ih]
        conv_rhs => rw [take_get_drop hg]

end DNode

/-- A successful resolution either marked the document or returned it
unchanged (the latter only in the degenerate text-container cases where
the wrap has nothing to wrap). -/
theorem applyHighlightByContext_true_marker_or_eq (cpath : List Nat)
    (pos : HighlightPosition) (root r' : DNode)
    (h : applyHighlightByContext cpath pos root = (true, r')) :
    containsMarker r' pos.id = true ∨ r' = root := by
  rw [applyHighlightByContext] at h
  cases hcts : computeTextStart (flatten ((nodeAt root cpath).getD (.text []))) pos with
  | none => rw [hcts] at h; exact absurd h (by simp)
  | some ts =>
    rw [hcts] at h
    simp only [] at h
    cases hr : findRange (textLeaves ((nodeAt root cpath).getD (.text [])))
        ts (ts + pos.text.length) with
    | none => rw [hr] at h; exact absurd h (by simp)
    | some r =>
      rw [hr] at h
      simp only [Prod.mk.injEq, true_and] at h
      subst h
      cases hno : nodeAt root cpath with
      | none =>
        right
        simp only [Option.getD_none, wrapContainer]
        exact setAtPath_invalid cpath root _ hno
      | some c =>
        cases c with
        | text s =>
          right
          simp only [Option.getD_some, wrapContainer]
          exact setAtPath_self cpath root (.text s) hno
        | elem t i hh cs =>
          left
          simp only [Option.getD_some, wrapContainer]
          apply containsMarker_setAtPath cpath root (.elem t i hh cs) _ hno
          simp only [containsMarker]
          rw [containsMarkerF_wrapForest]
          simp

/-- Successful `applyHighlight` either marked the document or returned it
unchanged. -/
theorem applyHighlight_true_marker_or_eq (pos : HighlightPosition) (root r' : DNode)
    (h : applyHighlight pos root = (true, r')) :
    containsMarker r' pos.id = true ∨ r' = root := by
  by_cases hmark : containsMarker root pos.id = true
  · rw [applyHighlight, if_pos hmark] at h
    simp only [Prod.mk.injEq, true_and] at h
    subst h
    exact Or.inl hmark
  · rw [applyHighlight, if_neg hmark] at h
    cases hdec : getElementByXPath pos.xpath root with
    | none =>
      rw [hdec] at h
      exact applyHighlightByContext_true_marker_or_eq [] pos root r' h
    | some cpath =>
      rw [hdec] at h
      simp only [] at h
      cases hr : findRange (textLeaves ((nodeAt root cpath).getD (.text [])))
          pos.startOffset pos.endOffset with
      | none =>
        rw [hr] at h
        exact applyHighlightByContext_true_marker_or_eq cpath pos root r' h
      | some r =>
        rw [hr] at h
        simp only [] at h
        by_cases hrt : rangeText (textLeaves ((nodeAt root cpath).getD (.text []))) r
            = pos.text
        · rw [if_pos hrt] at h
          simp only [Prod.mk.injEq, true_and] at h
          subst h
          cases hno : nodeAt root cpath with
          | none =>
            right
            simp only [Option.getD_none, wrapContainer]
            exact setAtPath_invalid cpath root _ hno
          | some c =>
            cases c with
            | text s =>
              right
              simp only [Option.getD_some, wrapContainer]
              exact setAtPath_self cpath root (.text s) hno
            | elem t i hh cs =>
              left
              simp only [Option.getD_some, wrapContainer]
              apply containsMarker_setAtPath cpath root (.elem t i hh cs) _ hno
              simp only [containsMarker]
              rw [containsMarkerF_wrapForest]
              simp
        · rw [if_neg hrt] at h
          exact applyHighlightByContext_true_marker_or_eq cpath pos root r' h

/-- C6: resolution is idempotent — when a marker carrying the
descriptor's id already exists, `applyHighlight` reports success
immediately without touching the document; hence after a successful
resolution a second resolution of the same descriptor reports success
and leaves the document exactly as after the first. -/
theorem claim_C6 (pos : HighlightPosition) (root r' : DNode) :
    (containsMarker root pos.id = true → applyHighlight pos root = (true, root)) ∧
    (applyHighlight pos root = (true, r') → applyHighlight pos r' = (true, r')) := by
  constructor
  · intro hmark
    rw [applyHighlight, if_pos hmark]
  · intro h
    rcases applyHighlight_true_marker_or_eq pos root r' h with hm | he
    · rw [applyHighlight, if_pos hm]
    · rw [he] at h ⊢
      exact h

set_option maxRecDepth 100000 in
theorem claim_C6_witness :
    applyHighlight exPosC2 exDocC2 = (true, (applyHighlight exPosC2 exDocC2).2) ∧
    applyHighlight exPosC2 (applyHighlight exPosC2 exDocC2).2
      = (true, (applyHighlight exPosC2 exDocC2).2) := by
  have h1 : (applyHighlight exPosC2 exDocC2).1 = true := by decide
  have key : applyHighlight exPosC2 exDocC2 = (true, (applyHighlight exPosC2 exDocC2).2) :=
    Prod.ext h1 rfl
  exact ⟨key, (claim_C6 exPosC2 exDocC2 ((applyHighlight exPosC2 exDocC2).2)).2 key⟩

namespace DNode

mutual
/-- `normalize` preserves the flattened text of a node. -/
theorem flatten_normalizeNode : ∀ n : DNode, flatten (normalizeNode n) = flatten n
  | .text s => by simp [normalizeNode]
  | .elem t i h cs => by
      simp only [normalizeNode, flatten]
      exact flatten_normalizeF cs

/-- `normalize` preserves the flattened text of a child list. -/
theorem flatten_normalizeF : ∀ l : List DNode, flattenF (normalizeF l) = flattenF l
  | [] => by simp [normalizeF]
  | .text s :: rest => by
      have ih := flatten_normalizeF rest
      simp only [normalizeF]
      cases hnr : normalizeF rest with
      | nil =>
        rw [hnr] at ih
        simp only [flattenF] at ih
        by_cases hs : s = [] <;>
          simp [hs, flattenF, flatten, ← ih]
      | cons hd tl =>
        rw [hnr] at ih
        cases hd with
        | text s' =>
          simp only [flattenF, flatten] at ih
          by_cases hss : s ++ s' = []
          · simp only [if_pos hss]
            have hs : s = [] := by
              cases List.append_eq_nil.mp hss; assumption
            have hs' : s' = [] := by
              cases List.append_eq_nil.mp hss; assumption
            simp only [flattenF, flatten, ← ih, hs, hs']
            simp
          · simp only [if_neg hss, flattenF, flatten, ← ih]
            simp
        | elem t i h cs =>
          simp only [flattenF, flatten] at ih
          by_cases hs : s = [] <;>
            simp [hs, flattenF, flatten, ← ih]
  | .elem t i h cs :: rest => by
      simp only [normalizeF, flattenF, flatten]
      rw [flatten_normalizeF cs, flatten_normalizeF rest]
end

/-- Unwrapping a child (replacing it by its children) preserves the
flattened text. -/
theorem flatten_unwrapChild (cs : List DNode) (k : Nat) :
    flattenF (unwrapChild cs k) = flattenF cs := by
  unfold unwrapChild
  cases hg : cs.get? k with
  | none =>
    have hk : cs.length ≤ k := List.get?_eq_none.mp hg
    rw [List.take_of_length_le hk, List.drop_eq_nil_of_le (by omega)]
    simp [flattenF_append, flattenF]
  | some c =>
    cases c with
    | text s =>
      conv_rhs => rw [take_get_drop hg]
    | elem t i h mcs =>
      conv_rhs => rw [take_get_drop hg]
      simp [flattenF_append, flattenF, flatten]

/-- `removeHighlightById` never changes the flattened text: it only
unwraps a marker in place and merges text nodes. -/
theorem flatten_removeHighlightById (hid : Str) (root : DNode) :
    flatten (removeHighlightById hid root) = flatten root := by
  rw [removeHighlightById]
  cases hp : findMarkerPath root hid with
  | none => rfl
  | some p =>
    simp only []
    cases hl : p.getLast? with
    | none => rfl
    | some k =>
      simp only []
      cases hno : nodeAt root p.dropLast with
      | none => rfl
      | some c =>
        cases c with
        | text s => rfl
        | elem t i h cs =>
          apply flatten_setAtPath p.dropLast root (.elem t i h cs) _ hno
          rw [flatten_normalizeNode]
          simp only [flatten]
          exact flatten_unwrapChild cs k

end DNode

/-- C7: for every marker applied by the wrap over some flattened range of
a container in the document, removing the marker by its id restores the
flattened text content to exactly what it was before the wrap: the
marker element is replaced by its children (content unwrapped, not
deleted) and adjacent text nodes merged. -/
theorem claim_C7 (root c : DNode) (cpath : List Nat) (a b : Nat) (hid : Str)
    (hc : nodeAt root cpath = some c) :
    flatten (removeHighlightById hid (setAtPath root cpath (wrapContainer c a b hid)))
      = flatten root := by
  rw [flatten_removeHighlightById]
  exact flatten_setAtPath cpath root c _ hc (flatten_wrapContainer c a b hid)

theorem claim_C7_witness :
    nodeAt exDocABC ([] : List Nat) = some exDocABC ∧
    flatten (removeHighlightById "m".toList
      (setAtPath exDocABC [] (wrapContainer exDocABC 1 3 "m".toList))) = flatten exDocABC :=
  ⟨rfl, claim_C7 exDocABC exDocABC [] 1 3 "m".toList rfl⟩

/-- C5: round trip of the structural-path codec: for every element
reachable from the document root of a document with unique ids (the
stable identifiers the id short-circuit relies on), decoding the encoded
path returns the same element — both for the stable-identifier
short-circuit and for the `(tag, same-tag-sibling-index)` path form. -/
theorem claim_C5 (root : DNode) (p : List Nat) (t i : Str) (h : Option Str)
    (cs : List DNode)
    (he : nodeAt root p = some (.elem t i h cs))
    (hnd : (allIds root).Nodup) :
    getElementByXPath (getXPath root p) root = some p :=
  getElementByXPath_getXPath root p t i h cs he hnd

theorem claim_C5_witness :
    nodeAt exDocId [0] = some (.elem "div".toList "main".toList none [.text "hi".toList]) ∧
    nodeAt exDocId [1] = some (.elem "div".toList [] none [.text "ho".toList]) ∧
    (allIds exDocId).Nodup ∧
    getXPath exDocId [0] = .byId "main".toList ∧
    getXPath exDocId [1] = .byPath [("html".toList, 1), ("div".toList, 2)] ∧
    getElementByXPath (getXPath exDocId [0]) exDocId = some [0] ∧
    getElementByXPath (getXPath exDocId [1]) exDocId = some [1] :=
  ⟨rfl, rfl, by decide, rfl, rfl,
    claim_C5 exDocId [0] "div".toList "main".toList none [.text "hi".toList] rfl (by decide),
    claim_C5 exDocId [1] "div".toList [] none [.text "ho".toList] rfl (by decide)⟩

namespace DNode

/-- Marker-freedom passes to any node reachable by a path. -/
theorem containsMarker_nodeAt_false : ∀ (p : List Nat) (n c : DNode) (hid : Str),
    nodeAt n p = some c → containsMarker n hid = false → containsMarker c hid = false
  | [], n, c, hid, h, hm => by
      simp only [nodeAt, Option.some.injEq] at h
      subst h
      exact hm
  | k :: p, .text s, c, hid, h, hm => by simp [nodeAt] at h
  | k :: p, .elem t i hh cs, c, hid, h, hm => by
      cases hg : cs.get? k with
      | none => rw [nodeAt_cons_none t i hh p hg] at h; exact absurd h (by simp)
      | some ch =>
        rw [nodeAt_cons_elem t i hh p hg] at h
        simp only [containsMarker, Bool.or_eq_false_iff] at hm
        exact containsMarker_nodeAt_false p ch c hid h
          (containsMarkerF_of_not cs hid k ch hm.2 hg)

end DNode

/-- C1 (amended): for every valid selection (non-empty, non-collapsed,
trimmed text non-empty) whose common ancestor container is an element,
whose raw text is the flattened span of the container at the captured
offsets and carries no leading whitespace, captured with a fresh id
against a document with unique ids that is not modified between capture
and resolution, the captured descriptor resolves via tier 2: the
structural path decodes to the capture container, the offset walk finds
the range, the range text verbatim-matches `d.text`, the marker is
applied over exactly `[startOffset, endOffset)`, and the marked range's
text equals `d.text`.  (As frozen the claim fails for selections whose
raw text starts with whitespace and for selections whose common ancestor
is a bare text node, see the counterexample.) -/
theorem claim_C1 (sel : SelectionModel) (root : DNode) (freshId : Str) (now : Nat)
    (d : HighlightPosition) (t i : Str) (oh : Option Str) (cs : List DNode)
    (hcap : createHighlightFromSelection sel root freshId now = some d)
    (hcont : nodeAt root sel.containerPath = some (.elem t i oh cs))
    (hraw : sel.raw = ((flatten (.elem t i oh cs)).drop sel.startFlat).take sel.raw.length)
    (hbound : sel.startFlat + sel.raw.length ≤ (flatten (.elem t i oh cs)).length)
    (hpre : JsStr.trim sel.raw <+: sel.raw)
    (hnd : (allIds root).Nodup)
    (hfresh : containsMarker root freshId = false) :
    getElementByXPath d.xpath root = some sel.containerPath ∧
    (∃ r, findRange (textLeaves (.elem t i oh cs)) d.startOffset d.endOffset = some r ∧
      rangeText (textLeaves (.elem t i oh cs)) r = d.text) ∧
    applyHighlight d root = (true, setAtPath root sel.containerPath
      (wrapContainer (.elem t i oh cs) d.startOffset d.endOffset d.id)) ∧
    markedText (applyHighlight d root).2 d.id = some d.text := by
  obtain ⟨htext, hxp, hso, heo, hid⟩ := createHighlight_fields sel root freshId now d hcap
  obtain ⟨_, hg2⟩ := createHighlight_guards sel root freshId now d hcap
  have hlen : 1 ≤ (JsStr.trim sel.raw).length := by
    cases hT : JsStr.trim sel.raw with
    | nil => exact absurd hT hg2
    | cons a as => simp [hT]
  have hlenle : (JsStr.trim sel.raw).length ≤ sel.raw.length := JsStr.trim_length_le sel.raw
  have hdec : getElementByXPath d.xpath root = some sel.containerPath := by
    rw [hxp]
    exact getElementByXPath_getXPath root sel.containerPath t i oh cs hcont hnd
  have hslice : ((flatten (.elem t i oh cs)).drop sel.startFlat).take
      (JsStr.trim sel.raw).length = JsStr.trim sel.raw :=
    trim_slice_eq (flatten (.elem t i oh cs)) sel.raw sel.startFlat hraw hpre
  have hrangeSome : (findRange (textLeaves (.elem t i oh cs)) d.startOffset d.endOffset).isSome := by
    rw [hso, heo]
    apply findRange_isSome
    · omega
    · rw [← flatten_length_eq]
      omega
  cases hr : findRange (textLeaves (.elem t i oh cs)) d.startOffset d.endOffset with
  | none => rw [hr] at hrangeSome; exact absurd hrangeSome (by simp)
  | some r =>
    have hflat := findRange_flatPos (textLeaves (.elem t i oh cs)) d.startOffset d.endOffset r
      hr (by omega)
    have hrt : rangeText (textLeaves (.elem t i oh cs)) r = d.text := by
      simp only [rangeText, hflat.1, hflat.2]
      rw [← flatten_eq_leaves, hso, heo, htext]
      have harith : sel.startFlat + (JsStr.trim sel.raw).length - sel.startFlat
          = (JsStr.trim sel.raw).length := by omega
      rw [harith]
      exact hslice
    have hfreshd : containsMarker root d.id = false := by rw [hid]; exact hfresh
    have happ : applyHighlight d root = (true, setAtPath root sel.containerPath
        (wrapContainer (.elem t i oh cs) d.startOffset d.endOffset d.id)) := by
      rw [applyHighlight, if_neg (by simp [hfreshd]), hdec]
      simp only [hcont, Option.getD_some]
      rw [hr]
      simp only []
      rw [if_pos hrt]
    refine ⟨hdec, ⟨r, rfl, hrt⟩, happ, ?_⟩
    rw [happ]
    have hcfree : containsMarker (.elem t i oh cs) d.id = false :=
      containsMarker_nodeAt_false sel.containerPath root (.elem t i oh cs) d.id hcont hfreshd
    rw [markedText_setAtPath sel.containerPath root (.elem t i oh cs) _ hcont hfreshd]
    rw [markedText_wrapContainer t i oh cs d.startOffset d.endOffset d.id hcfree]
    rw [hso, heo, htext]
    have harith : sel.startFlat + (JsStr.trim sel.raw).length - sel.startFlat
        = (JsStr.trim sel.raw).length := by omega
    rw [harith]
    simp only [Option.some.injEq]
    have : flattenF cs = flatten (.elem t i oh cs) := rfl
    rw [this]
    exact hslice

theorem claim_C1_witness :
    createHighlightFromSelection exSelBC exDocABC "h2".toList 0 = some exDescBC ∧
    containsMarker exDocABC "h2".toList = false ∧
    (getElementByXPath exDescBC.xpath exDocABC = some exSelBC.containerPath ∧
     (∃ r, findRange (textLeaves (.elem "html".toList [] none [.text "a bc".toList]))
         exDescBC.startOffset exDescBC.endOffset = some r ∧
       rangeText (textLeaves (.elem "html".toList [] none [.text "a bc".toList])) r
         = exDescBC.text) ∧
     applyHighlight exDescBC exDocABC = (true, setAtPath exDocABC exSelBC.containerPath
       (wrapContainer (.elem "html".toList [] none [.text "a bc".toList])
         exDescBC.startOffset exDescBC.endOffset exDescBC.id)) ∧
     markedText (applyHighlight exDescBC exDocABC).2 exDescBC.id = some exDescBC.text) :=
  ⟨rfl, by decide,
    claim_C1 exSelBC exDocABC "h2".toList 0 exDescBC "html".toList [] none
      [.text "a bc".toList] rfl rfl (by decide) (by decide) ⟨[], rfl⟩ (by decide) (by decide)⟩

/-- C1 as frozen fails: ` bc` is a valid selection of the unmodified
document with text `a bc` (non-empty, non-collapsed, trimmed text `bc`
non-empty, raw text exactly the flattened span `[1, 4)`), yet the direct
(tier-2) resolution of its captured descriptor finds the range `[1, 3)`
whose text ` b` differs from `d.text = bc`, so resolution cannot succeed
via tier 2 and falls through to the context search. -/
theorem claim_C1_counterexample :
    exSelABC.rangeCount ≠ 0 ∧ exSelABC.isCollapsed = false ∧
    JsStr.trim exSelABC.raw ≠ [] ∧
    exSelABC.raw = ((flatten exDocABC).drop exSelABC.startFlat).take exSelABC.raw.length ∧
    createHighlightFromSelection exSelABC exDocABC "h1".toList 0 = some exDescC4 ∧
    getElementByXPath exDescC4.xpath exDocABC = some [] ∧
    findRange (textLeaves exDocABC) exDescC4.startOffset exDescC4.endOffset
      = some ((0, 1), (0, 3)) ∧
    rangeText (textLeaves exDocABC) ((0, 1), (0, 3)) ≠ exDescC4.text := by
  refine ⟨by decide, by decide, by decide, by decide, rfl, by decide, by decide, by decide⟩

namespace UrlModel

theorem takeWhile_append_all {p : Char → Bool} : ∀ (l t : Str), (∀ a ∈ l, p a = true) →
    (l ++ t).takeWhile p = l ++ t.takeWhile p
  | [], t, _ => by simp
  | c :: l, t, h => by
    have hc : p c = true := h c (by simp)
    simp only [List.cons_append, List.takeWhile_cons, hc, if_true]
    rw [takeWhile_append_all l t (fun a ha => h a (by simp [ha]))]

theorem takeWhile_eq_self_of_all {p : Char → Bool} (l : Str) (h : ∀ a ∈ l, p a = true) :
    l.takeWhile p = l := by
  have := takeWhile_append_all l [] h
  simpa using this

theorem dropWhile_append_all {p : Char → Bool} : ∀ (l t : Str), (∀ a ∈ l, p a = true) →
    (l ++ t).dropWhile p = t.dropWhile p
  | [], t, _ => by simp
  | c :: l, t, h => by
    have hc : p c = true := h c (by simp)
    simp only [List.cons_append, List.dropWhile_cons, hc, if_true]
    exact dropWhile_append_all l t (fun a ha => h a (by simp [ha]))

theorem prefix_append_iff_of_le {w y : Str} (z : Str) (h : w.length ≤ y.length) :
    w <+: y ++ z ↔ w <+: y := by
  rw [List.prefix_iff_eq_take, List.prefix_iff_eq_take,
    List.take_append_eq_append_take, Nat.sub_eq_zero_of_le h]
  simp

end UrlModel

namespace JsStr

/-- Constructor form of the `indexOf` specification. -/
theorem indexOfFrom_eq_some {hay needle : Str} {start j : Nat}
    (hj : j ≤ hay.length) (hstart : start ≤ j) (hocc : needle <+: hay.drop j)
    (hmin : ∀ k, start ≤ k → k < j → ¬ needle <+: hay.drop k) :
    indexOfFrom hay needle start = some j := by
  cases h : indexOfFrom hay needle start with
  | none => exact absurd hocc (indexOfFrom_none h j hstart hj)
  | some j' =>
    rcases Nat.lt_trichotomy j' j with hlt | heq | hgt
    · exact absurd (indexOfFrom_some h).2 (hmin j' (indexOfFrom_some h).1 hlt)
    · rw [heq]
    · exact absurd hocc (indexOfFrom_min h j hstart hgt)

end JsStr

namespace UrlModel

theorem splitSep_no_sep {sep : Char} : ∀ (s : Str), s ≠ [] → sep ∉ s →
    splitSep sep s = [s]
  | [], h, _ => absurd rfl h
  | c :: cs, _, hmem => by
    have hc : ¬ c = sep := by
      intro he
      exact hmem (by simp [he])
    simp only [splitSep, if_neg hc]
    cases hcs : cs with
    | nil => simp [splitSep]
    | cons c' cs' =>
      rw [← hcs, splitSep_no_sep cs (by simp [hcs])
        (fun hm => hmem (List.mem_cons_of_mem _ hm))]

theorem splitSep_append {sep : Char} : ∀ (seg t : Str), seg ≠ [] → sep ∉ seg →
    splitSep sep (seg ++ sep :: t) = seg :: splitSep sep t
  | [], t, h, _ => absurd rfl h
  | c :: cs, t, _, hmem => by
    have hc : ¬ c = sep := by
      intro he
      exact hmem (by simp [he])
    simp only [List.cons_append, splitSep, if_neg hc]
    cases hcs : cs with
    | nil => simp [splitSep]
    | cons c' cs' =>
      rw [show ((c' :: cs').append (sep :: t) : Str) = (c' :: cs') ++ sep :: t from rfl,
        splitSep_append (c' :: cs') t (by simp)
          (fun hm => hmem (by rw [hcs]; exact List.mem_cons_of_mem _ hm))]

theorem parseKV_eq {k v : Str} (hk : ('=' : Char) ∉ k) : parseKV (k ++ '=' :: v) = (k, v) := by
  have hall : ∀ a ∈ k, (fun c => decide ¬ (c = '=')) a = true := by
    intro a ha
    simp only [decide_eq_true_eq]
    intro he
    exact hk (he ▸ ha)
  unfold parseKV
  rw [takeWhile_append_all k ('=' :: v) hall, dropWhile_append_all k ('=' :: v) hall]
  simp [List.takeWhile_cons, List.dropWhile_cons]

theorem parseParams_append_sep (seg t : Str) (hne : seg ≠ [])
    (hmem : ('&' : Char) ∉ seg) :
    parseParams (seg ++ '&' :: t) = parseKV seg :: parseParams t := by
  unfold parseParams
  rw [splitSep_append seg t hne hmem]
  rw [List.filter_cons_of_pos (by simp [hne])]
  simp

theorem seg_no_amp {kv : Str × Str} (h1 : ('&' : Char) ∉ kv.1) (h2 : ('&' : Char) ∉ kv.2) :
    ('&' : Char) ∉ kv.1 ++ '=' :: kv.2 := by
  intro hm
  rcases List.mem_append.mp hm with hm1 | hm2
  · exact h1 hm1
  · rcases List.mem_cons.mp hm2 with he | hm3
    · exact absurd he (by decide)
    · exact h2 hm3

theorem parseParams_renderParams : ∀ (l : List (Str × Str)),
    (∀ kv ∈ l, ('&' : Char) ∉ kv.1 ∧ ('&' : Char) ∉ kv.2 ∧ ('=' : Char) ∉ kv.1) →
    parseParams (renderParams l) = l
  | [], _ => rfl
  | [kv], h => by
    obtain ⟨h1, h2, h3⟩ := h kv (by simp)
    have hne : (kv.1 ++ '=' :: kv.2 : Str) ≠ [] := by simp
    have hseg := seg_no_amp h1 h2
    show parseParams (kv.1 ++ '=' :: kv.2) = [kv]
    unfold parseParams
    rw [splitSep_no_sep _ hne hseg]
    rw [List.filter_cons_of_pos (by simp [hne])]
    simp [parseKV_eq h3]
  | kv :: a :: l, h => by
    obtain ⟨h1, h2, h3⟩ := h kv (by simp)
    have hseg := seg_no_amp h1 h2
    have ih := parseParams_renderParams (a :: l) (fun kv' hm => h kv' (by simp [hm]))
    have hr : renderParams (kv :: a :: l)
        = (kv.1 ++ '=' :: kv.2) ++ '&' :: renderParams (a :: l) := by
      simp [renderParams]
    rw [hr, parseParams_append_sep _ _ (by simp) hseg, parseKV_eq h3, ih]

theorem parseUrl_render (scheme host p' qs : Str)
    (hmin : ∀ k, k < scheme.length → ¬ schemeSep <+: (scheme ++ schemeSep).drop k)
    (hhs : ('#' : Char) ∉ scheme) (hhh : ('#' : Char) ∉ host)
    (hhp : ('#' : Char) ∉ p') (hhq : ('#' : Char) ∉ qs)
    (hhost : ∀ c ∈ host, ¬ (c = '/' ∨ c = '?'))
    (hp0 : p' = [] ∨ p'.head? = some '/')
    (hpq : ('?' : Char) ∉ p') :
    parseUrl (scheme ++ schemeSep ++ host ++ p' ++ (if qs = [] then [] else '?' :: qs))
      = some { origin := scheme ++ schemeSep ++ host,
               pathname := if p' = [] then ['/'] else p',
               search := qs } := by
  set q : Str := if qs = [] then [] else '?' :: qs with hq
  have hfullassoc : scheme ++ schemeSep ++ host ++ p' ++ q
      = scheme ++ (schemeSep ++ (host ++ (p' ++ q))) := by
    simp [List.append_assoc]
  have hall : ∀ a ∈ scheme ++ schemeSep ++ host ++ p' ++ q,
      (fun c => decide ¬ (c = '#')) a = true := by
    intro a ha
    simp only [decide_eq_true_eq]
    intro he
    subst he
    simp only [List.mem_append] at ha
    rcases ha with (((ha | ha) | ha) | ha) | ha
    · exact hhs ha
    · simp [schemeSep] at ha
    · exact hhh ha
    · exact hhp ha
    · rw [hq] at ha
      by_cases hqs : qs = []
      · simp [hqs] at ha
      · rw [if_neg hqs] at ha
        rcases List.mem_cons.mp ha with he | ha'
        · exact absurd he (by decide)
        · exact hhq ha'
  have hidx : JsStr.indexOf (scheme ++ schemeSep ++ host ++ p' ++ q) schemeSep
      = some scheme.length := by
    apply JsStr.indexOfFrom_eq_some
    · simp only [List.length_append]
      omega
    · omega
    · rw [hfullassoc, List.drop_left]
      exact ⟨host ++ (p' ++ q), rfl⟩
    · intro k _ hk hpre
      apply hmin k hk
      rw [hfullassoc, ← List.append_assoc] at hpre
      rw [List.drop_append_eq_append_drop] at hpre
      have hz : k - (scheme ++ schemeSep).length = 0 := by
        simp only [List.length_append, schemeSep, List.length_cons, List.length_nil]
        omega
      rw [hz, List.drop_zero] at hpre
      refine (prefix_append_iff_of_le _ ?_).mp hpre
      simp only [List.length_drop, List.length_append, schemeSep, List.length_cons,
        List.length_nil]
      omega
  have hself : (scheme ++ schemeSep ++ host ++ p' ++ q).takeWhile
      (fun c => decide ¬ (c = '#')) = scheme ++ schemeSep ++ host ++ p' ++ q :=
    takeWhile_eq_self_of_all _ hall
  have htake : (scheme ++ schemeSep ++ host ++ p' ++ q).take scheme.length = scheme := by
    rw [hfullassoc]
    exact List.take_left ..
  have hdrop : (scheme ++ schemeSep ++ host ++ p' ++ q).drop
      (scheme.length + schemeSep.length) = host ++ (p' ++ q) := by
    rw [hfullassoc,
      show scheme.length + schemeSep.length = (scheme ++ schemeSep).length by simp,
      ← List.append_assoc]
    exact List.drop_left ..
  have htwq : (p' ++ q).takeWhile (fun c => decide ¬ (c = '?')) = p' := by
    rw [takeWhile_append_all p' q (by
      intro a ha
      simp only [decide_eq_true_eq]
      intro he
      exact hpq (he ▸ ha))]
    have : q.takeWhile (fun c => decide ¬ (c = '?')) = [] := by
      rw [hq]
      by_cases hqs : qs = []
      · simp [hqs]
      · rw [if_neg hqs]
        simp [List.takeWhile_cons]
    rw [this]
    simp
  have hhostTW : (host ++ (p' ++ q)).takeWhile
      (fun c => decide ¬ (c = '/' ∨ c = '?')) = host := by
    rw [takeWhile_append_all host _ (by
      intro a ha
      simp only [decide_eq_true_eq]
      exact hhost a ha)]
    have hnil : (p' ++ q).takeWhile (fun c => decide ¬ (c = '/' ∨ c = '?')) = [] := by
      cases hp0 with
      | inl hpe =>
        subst hpe
        simp only [List.nil_append]
        rw [hq]
        by_cases hqs : qs = []
        · simp [hqs]
        · rw [if_neg hqs]
          simp [List.takeWhile_cons]
      | inr hph =>
        cases p' with
        | nil => simp at hph
        | cons c rest =>
          simp only [List.head?_cons, Option.some.injEq] at hph
          subst hph
          simp [List.takeWhile_cons]
    rw [hnil]
    simp
  have hrest2 : (host ++ (p' ++ q)).drop host.length = p' ++ q := List.drop_left ..
  have hquery : ((p' ++ q).drop p'.length).drop 1 = qs := by
    rw [List.drop_left]
    rw [hq]
    by_cases hqs : qs = []
    · simp [hqs]
    · rw [if_neg hqs]
      simp
  rw [parseUrl]
  rw [hself, hidx]
  simp only []
  rw [htake, hdrop, hhostTW, hrest2, htwq, hquery]

/-- `normalizeUrl` in terms of the named query pipeline. -/
theorem normalizeUrl_eq (u : Str) :
    normalizeUrl u = match parseUrl u with
      | none => u
      | some r => r.origin ++ stripTrailingSlash r.pathname
          ++ (if queryOf r.search = [] then [] else '?' :: queryOf r.search) := by
  rw [normalizeUrl]
  cases parseUrl u with
  | none => rfl
  | some r => rfl

theorem mem_splitSep {sep : Char} : ∀ (s seg : Str), seg ∈ splitSep sep s →
    (∀ c ∈ seg, c ∈ s) ∧ sep ∉ seg
  | [], seg, h => by simp [splitSep] at h
  | c :: cs, seg, h => by
    by_cases hc : c = sep
    · rw [splitSep, if_pos hc] at h
      rcases List.mem_cons.mp h with he | hm
      · subst he
        exact ⟨by simp, by simp⟩
      · obtain ⟨h1, h2⟩ := mem_splitSep cs seg hm
        exact ⟨fun a ha => List.mem_cons_of_mem _ (h1 a ha), h2⟩
    · rw [splitSep, if_neg hc] at h
      cases hsp : splitSep sep cs with
      | nil =>
        rw [hsp] at h
        simp only [List.mem_singleton] at h
        subst h
        refine ⟨by simp, ?_⟩
        simp only [List.mem_singleton]
        intro he
        exact hc he.symm
      | cons seg0 rest =>
        rw [hsp] at h
        rcases List.mem_cons.mp h with he | hm
        · subst he
          obtain ⟨h1, h2⟩ := mem_splitSep cs seg0 (by rw [hsp]; exact List.mem_cons_self ..)
          constructor
          · intro a ha
            rcases List.mem_cons.mp ha with he' | hm'
            · simp [he']
            · exact List.mem_cons_of_mem _ (h1 a hm')
          · intro hm'
            rcases List.mem_cons.mp hm' with he' | hm''
            · exact hc he'.symm
            · exact h2 hm''
        · obtain ⟨h1, h2⟩ := mem_splitSep cs seg
            (by rw [hsp]; exact List.mem_cons_of_mem _ hm)
          exact ⟨fun a ha => List.mem_cons_of_mem _ (h1 a ha), h2⟩

theorem parseParams_entry {q : Str} {kv : Str × Str} (h : kv ∈ parseParams q) :
    (∀ c ∈ kv.1, c ∈ q) ∧ (∀ c ∈ kv.2, c ∈ q) ∧
    ('&' : Char) ∉ kv.1 ∧ ('&' : Char) ∉ kv.2 ∧ ('=' : Char) ∉ kv.1 := by
  unfold parseParams at h
  rcases List.mem_map.mp h with ⟨seg, hseg, hkv⟩
  have hsegm : seg ∈ splitSep '&' q := (List.mem_filter.mp hseg).1
  obtain ⟨hsub, hamp⟩ := mem_splitSep q seg hsegm
  subst hkv
  have h1sub : ∀ c ∈ (parseKV seg).1, c ∈ seg := by
    intro c hc
    exact (List.takeWhile_sublist _).subset hc
  have h2sub : ∀ c ∈ (parseKV seg).2, c ∈ seg := by
    intro c hc
    exact ((List.drop_sublist 1 _).trans (List.dropWhile_sublist _)).subset hc
  refine ⟨fun c hc => hsub c (h1sub c hc), fun c hc => hsub c (h2sub c hc),
    fun hm => hamp (h1sub _ hm), fun hm => hamp (h2sub _ hm), ?_⟩
  intro hm
  have := List.mem_takeWhile_imp hm
  simp at this

theorem mem_renderParams {c : Char} : ∀ (l : List (Str × Str)), c ∈ renderParams l →
    c = '=' ∨ c = '&' ∨ ∃ kv ∈ l, c ∈ kv.1 ∨ c ∈ kv.2
  | [], h => by simp [renderParams] at h
  | [kv], h => by
    simp only [renderParams, List.mem_append, List.mem_cons] at h
    rcases h with h1 | (he | h2)
    · exact Or.inr (Or.inr ⟨kv, by simp, Or.inl h1⟩)
    · exact Or.inl he
    · exact Or.inr (Or.inr ⟨kv, by simp, Or.inr h2⟩)
  | kv :: a :: l, h => by
    have hr : renderParams (kv :: a :: l)
        = kv.1 ++ '=' :: kv.2 ++ '&' :: renderParams (a :: l) := by
      simp [renderParams]
    rw [hr] at h
    simp only [List.append_assoc, List.cons_append, List.mem_append, List.mem_cons] at h
    rcases h with h1 | he | h2 | he' | h3
    · exact Or.inr (Or.inr ⟨kv, by simp, Or.inl h1⟩)
    · exact Or.inl he
    · exact Or.inr (Or.inr ⟨kv, by simp, Or.inr h2⟩)
    · exact Or.inr (Or.inl he')
    · rcases mem_renderParams (a :: l) h3 with g1 | g2 | ⟨kv', hkv', hc⟩
      · exact Or.inl g1
      · exact Or.inr (Or.inl g2)
      · exact Or.inr (Or.inr ⟨kv', List.mem_cons_of_mem _ hkv', hc⟩)

theorem getParam_mem {params : List (Str × Str)} {k v : Str}
    (h : getParam params k = some v) : (k, v) ∈ params := by
  unfold getParam at h
  cases hf : params.find? (fun kv => kv.1 = k) with
  | none => rw [hf] at h; simp at h
  | some kv =>
    rw [hf] at h
    simp only [Option.map_some', Option.some.injEq] at h
    have hmem := List.mem_of_find?_eq_some hf
    have hpred := List.find?_some hf
    simp only [decide_eq_true_eq] at hpred
    have he : kv = (k, v) := by
      cases kv
      simp_all
    rw [← he]
    exact hmem

theorem getParam_isSome_of_mem : ∀ (params : List (Str × Str)) (k : Str),
    k ∈ params.map Prod.fst → ∃ v, getParam params k = some v
  | [], k, h => by simp at h
  | kv :: ps, k, h => by
    by_cases he : kv.1 = k
    · refine ⟨kv.2, ?_⟩
      unfold getParam
      rw [List.find?_cons_of_pos _ (by simp [he])]
      rfl
    · have hm : k ∈ ps.map Prod.fst := by
        simp only [List.map_cons, List.mem_cons] at h
        rcases h with h1 | h2
        · exact absurd h1.symm he
        · exact h2
      obtain ⟨v, hv⟩ := getParam_isSome_of_mem ps k hm
      refine ⟨v, ?_⟩
      unfold getParam at hv ⊢
      rw [List.find?_cons_of_neg _ (by simp [he])]
      exact hv

theorem filterMap_getParam_fst {ps : List (Str × Str)} : ∀ (ks : List Str),
    (∀ k ∈ ks, ∃ v, getParam ps k = some v) →
    (ks.filterMap (fun k => (getParam ps k).map (fun v => (k, v)))).map Prod.fst = ks
  | [], _ => rfl
  | k :: ks, h => by
    obtain ⟨v, hv⟩ := h k (by simp)
    rw [List.filterMap_cons_some (by rw [hv]; rfl)]
    simp only [List.map_cons]
    rw [filterMap_getParam_fst ks (fun k' hk' => h k' (by simp [hk']))]

theorem getParam_filterMap {ps : List (Str × Str)} : ∀ (ks : List Str) (k : Str),
    (∀ k' ∈ ks, ∃ v, getParam ps k' = some v) → k ∈ ks →
    getParam (ks.filterMap (fun k' => (getParam ps k').map (fun v => (k', v)))) k
      = getParam ps k
  | [], k, _, hk => by simp at hk
  | k0 :: ks, k, h, hk => by
    obtain ⟨v0, hv0⟩ := h k0 (by simp)
    rw [List.filterMap_cons_some (by rw [hv0]; rfl)]
    by_cases he : k0 = k
    · subst he
      rw [getParam, List.find?_cons_of_pos _ (by simp)]
      simp only [Option.map_some']
      exact hv0.symm
    · have hk' : k ∈ ks := by
        rcases List.mem_cons.mp hk with h1 | h2
        · exact absurd h1.symm he
        · exact h2
      rw [getParam, List.find?_cons_of_neg _ (by simp [he])]
      exact getParam_filterMap ks k (fun k' hm => h k' (by simp [hm])) hk'

theorem filterMap_congr_mem {f g : Str → Option (Str × Str)} : ∀ (l : List Str),
    (∀ a ∈ l, f a = g a) → l.filterMap f = l.filterMap g
  | [], _ => rfl
  | a :: l, h => by
    rw [List.filterMap_cons, List.filterMap_cons, h a (by simp),
      filterMap_congr_mem l (fun a' ha' => h a' (by simp [ha']))]

theorem cleanedOf_mem {search : Str} {kv : Str × Str} (h : kv ∈ cleanedOf search) :
    kv ∈ parseParams search := by
  rw [cleanedOf] at h
  rcases List.mem_filterMap.mp h with ⟨k, _, hfk⟩
  cases hg : getParam (parseParams search) k with
  | none => rw [hg] at hfk; simp at hfk
  | some v =>
    rw [hg] at hfk
    simp only [Option.map_some', Option.some.injEq] at hfk
    rw [← hfk]
    exact getParam_mem hg

theorem parseParams_queryOf (search : Str) :
    parseParams (queryOf search) = cleanedOf search := by
  rw [queryOf]
  apply parseParams_renderParams
  intro kv hkv
  have he := parseParams_entry (cleanedOf_mem hkv)
  exact ⟨he.2.2.1, he.2.2.2.1, he.2.2.2.2⟩

theorem mem_sortedKeysOf_params : ∀ (search k : Str), k ∈ sortedKeysOf search →
    ∃ v, getParam (parseParams search) k = some v := by
  intro search k hk
  rw [sortedKeysOf] at hk
  have hk2 := (List.perm_insertionSort _ _).mem_iff.mp hk
  exact getParam_isSome_of_mem _ k (List.mem_of_mem_filter hk2)

theorem map_fst_cleanedOf (search : Str) :
    (cleanedOf search).map Prod.fst = sortedKeysOf search := by
  rw [cleanedOf]
  exact filterMap_getParam_fst (sortedKeysOf search) (mem_sortedKeysOf_params search)

theorem sortedKeysOf_sorted (search : Str) :
    List.Sorted (fun a b : Str => a ≤ b) (sortedKeysOf search) := by
  rw [sortedKeysOf]
  haveI : IsTotal Str (fun a b : Str => a ≤ b) := ⟨fun a b => le_total a b⟩
  haveI : IsTrans Str (fun a b : Str => a ≤ b) := ⟨fun a b c h1 h2 => le_trans h1 h2⟩
  exact List.sorted_insertionSort _ _

theorem sortedKeysOf_queryOf (search : Str) :
    sortedKeysOf (queryOf search) = sortedKeysOf search := by
  have hstep : sortedKeysOf (queryOf search)
      = List.insertionSort (fun a b : Str => a ≤ b)
        ((sortedKeysOf search).filter
          (fun k => ¬ trackingParams.contains (toLowerStr k))) := by
    rw [sortedKeysOf, parseParams_queryOf search, map_fst_cleanedOf search]
  rw [hstep]
  have hfil : (sortedKeysOf search).filter
      (fun k => ¬ trackingParams.contains (toLowerStr k)) = sortedKeysOf search := by
    apply List.filter_eq_self.mpr
    intro k hk
    rw [sortedKeysOf] at hk
    have hk2 := (List.perm_insertionSort _ _).mem_iff.mp hk
    exact (List.mem_filter.mp hk2).2
  rw [hfil]
  exact (sortedKeysOf_sorted search).insertionSort_eq

theorem getParam_cleanedOf (search k : Str) (hk : k ∈ sortedKeysOf search) :
    getParam (cleanedOf search) k = getParam (parseParams search) k := by
  rw [cleanedOf]
  exact getParam_filterMap (sortedKeysOf search) k (mem_sortedKeysOf_params search) hk

theorem cleanedOf_queryOf (search : Str) : cleanedOf (queryOf search) = cleanedOf search := by
  rw [cleanedOf, sortedKeysOf_queryOf, parseParams_queryOf]
  conv_rhs => rw [cleanedOf]
  apply filterMap_congr_mem
  intro k hk
  rw [getParam_cleanedOf search k hk]

theorem queryOf_queryOf (search : Str) : queryOf (queryOf search) = queryOf search := by
  rw [queryOf, cleanedOf_queryOf, queryOf]

theorem mem_queryOf {search : Str} {c : Char} (h : c ∈ queryOf search) :
    c = '=' ∨ c = '&' ∨ c ∈ search := by
  rcases mem_renderParams (cleanedOf search) h with he | he | ⟨kv, hkv, hc⟩
  · exact Or.inl he
  · exact Or.inr (Or.inl he)
  · have he := parseParams_entry (cleanedOf_mem hkv)
    rcases hc with h1 | h2
    · exact Or.inr (Or.inr (he.1 c h1))
    · exact Or.inr (Or.inr (he.2.1 c h2))

theorem drop_takeWhile_length {p : Char → Bool} : ∀ (l : Str),
    l.drop (l.takeWhile p).length = l.dropWhile p
  | [] => rfl
  | a :: l => by
    cases ha : p a with
    | true =>
      rw [List.takeWhile_cons, List.dropWhile_cons]
      simp only [ha, if_true, List.length_cons, List.drop_succ_cons]
      exact drop_takeWhile_length l
    | false =>
      rw [List.takeWhile_cons, List.dropWhile_cons]
      simp [ha]

theorem takeWhile_head {p : Char → Bool} : ∀ {l : Str} {c : Char} {t : Str},
    l.takeWhile p = c :: t → ∃ l', l = c :: l' ∧ p c = true := by
  intro l c t h
  cases l with
  | nil => simp at h
  | cons a l' =>
    rw [List.takeWhile_cons] at h
    cases ha : p a with
    | true =>
      rw [if_pos ha] at h
      injection h with h1 _
      subst h1
      exact ⟨l', rfl, ha⟩
    | false =>
      rw [ha] at h
      simp at h

theorem dropWhile_head_false {p : Char → Bool} : ∀ (l : Str) {c : Char} {t : Str},
    l.dropWhile p = c :: t → p c = false
  | [], c, t, h => by simp at h
  | a :: l, c, t, h => by
    rw [List.dropWhile_cons] at h
    cases ha : p a with
    | true =>
      rw [if_pos ha] at h
      exact dropWhile_head_false l h
    | false =>
      rw [ha] at h
      simp only [Bool.false_eq_true, if_false] at h
      injection h with h1 _
      subst h1
      exact ha

theorem stripTrailingSlash_subset {p : Str} : ∀ c ∈ stripTrailingSlash p, c ∈ p := by
  intro c hc
  rw [stripTrailingSlash] at hc
  by_cases hl : p.getLast? = some '/'
  · rw [if_pos hl] at hc
    exact (List.dropLast_sublist p).subset hc
  · rw [if_neg hl] at hc
    exact hc

theorem stripTrailingSlash_head {p : Str} {c : Char} (hh : p.head? = some c) :
    stripTrailingSlash p = [] ∨ (stripTrailingSlash p).head? = some c := by
  rw [stripTrailingSlash]
  by_cases hl : p.getLast? = some '/'
  · rw [if_pos hl]
    cases p with
    | nil => exact Or.inl rfl
    | cons a t =>
      cases t with
      | nil => exact Or.inl rfl
      | cons b t' =>
        right
        simp only [List.head?_cons, Option.some.injEq] at hh
        subst hh
        rfl
  · rw [if_neg hl]
    exact Or.inr hh

theorem parseUrl_render_parsed (s scheme rest host rest2 path qs0 : Str) (i : Nat)
    (hidx : JsStr.indexOf s schemeSep = some i)
    (hhash : ∀ c ∈ s, ¬ c = '#')
    (hscheme : scheme = s.take i)
    (hrest : rest = s.drop (i + schemeSep.length))
    (hhost : host = rest.takeWhile (fun c => ¬ (c = '/' ∨ c = '?')))
    (hrest2 : rest2 = rest.drop host.length)
    (hpath : path = rest2.takeWhile (fun c => ¬ (c = '?')))
    (hqs0 : qs0 = (rest2.drop path.length).drop 1) :
    parseUrl (scheme ++ schemeSep ++ host
        ++ stripTrailingSlash (if path = [] then ['/'] else path)
        ++ (if queryOf qs0 = [] then [] else '?' :: queryOf qs0))
      = some { origin := scheme ++ schemeSep ++ host,
               pathname := if stripTrailingSlash (if path = [] then ['/'] else path) = []
                 then ['/'] else stripTrailingSlash (if path = [] then ['/'] else path),
               search := queryOf qs0 } := by
  have hidx2 : JsStr.indexOfFrom s schemeSep 0 = some i := hidx
  have hocc := (JsStr.indexOfFrom_some hidx2).2
  have hil : i ≤ s.length := JsStr.indexOfFrom_some_le hidx2
  obtain ⟨tail0, htail0⟩ := hocc
  have hslen : scheme.length = i := by
    rw [hscheme, List.length_take]
    omega
  have hsdecomp : s = (scheme ++ schemeSep) ++ tail0 := by
    conv_lhs => rw [← List.take_append_drop i s, ← htail0]
    rw [hscheme, ← List.append_assoc]
  have hmin : ∀ k, k < scheme.length → ¬ schemeSep <+: (scheme ++ schemeSep).drop k := by
    intro k hk hpre
    have hz : k - (scheme ++ schemeSep).length = 0 := by
      simp only [List.length_append]
      omega
    have hdk : s.drop k = (scheme ++ schemeSep).drop k ++ tail0 := by
      rw [hsdecomp, List.drop_append_eq_append_drop, hz, List.drop_zero]
    exact JsStr.indexOfFrom_min hidx2 k (Nat.zero_le k) (by omega)
      (by rw [hdk]; exact hpre.trans (List.prefix_append _ _))
  have hsub_rest : ∀ c ∈ rest, c ∈ s := by
    intro c hc
    rw [hrest] at hc
    exact (List.drop_sublist _ _).subset hc
  have hsub_rest2 : ∀ c ∈ rest2, c ∈ s := by
    intro c hc
    rw [hrest2] at hc
    exact hsub_rest c ((List.drop_sublist _ _).subset hc)
  have hsub_host : ∀ c ∈ host, c ∈ s := by
    intro c hc
    rw [hhost] at hc
    exact hsub_rest c ((List.takeWhile_sublist _).subset hc)
  have hsub_path : ∀ c ∈ path, c ∈ s := by
    intro c hc
    rw [hpath] at hc
    exact hsub_rest2 c ((List.takeWhile_sublist _).subset hc)
  have hsub_qs0 : ∀ c ∈ qs0, c ∈ s := by
    intro c hc
    rw [hqs0] at hc
    exact hsub_rest2 c ((List.drop_sublist _ _).subset ((List.drop_sublist _ _).subset hc))
  have hhs : ('#' : Char) ∉ scheme := by
    intro hm
    rw [hscheme] at hm
    exact hhash _ ((List.take_sublist _ _).subset hm) rfl
  have hhh : ('#' : Char) ∉ host := fun hm => hhash _ (hsub_host _ hm) rfl
  set p' : Str := stripTrailingSlash (if path = [] then ['/'] else path) with hp'
  have hhp : ('#' : Char) ∉ p' := by
    intro hm
    rw [hp'] at hm
    have hm2 := stripTrailingSlash_subset _ hm
    by_cases hpe : path = []
    · rw [if_pos hpe] at hm2
      simp at hm2
    · rw [if_neg hpe] at hm2
      exact hhash _ (hsub_path _ hm2) rfl
  have hhq2 : ('#' : Char) ∉ queryOf qs0 := by
    intro hm
    rcases mem_queryOf hm with he | he | hin
    · exact absurd he (by decide)
    · exact absurd he (by decide)
    · exact hhash _ (hsub_qs0 _ hin) rfl
  have hhostc : ∀ c ∈ host, ¬ (c = '/' ∨ c = '?') := by
    intro c hc
    rw [hhost] at hc
    have := List.mem_takeWhile_imp hc
    simpa using this
  have hp0 : p' = [] ∨ p'.head? = some '/' := by
    by_cases hpe : path = []
    · left
      rw [hp', if_pos hpe]
      decide
    · rw [hp', if_neg hpe]
      obtain ⟨c, t, hpc⟩ : ∃ c t, path = c :: t := by
        cases path with
        | nil => exact absurd rfl hpe
        | cons c t => exact ⟨c, t, rfl⟩
      obtain ⟨l', hrest2eq, hpqc⟩ := takeWhile_head (hpath.symm.trans hpc)
      have hdw : rest2 = rest.dropWhile (fun c => ¬ (c = '/' ∨ c = '?')) := by
        rw [hrest2, hhost]
        exact drop_takeWhile_length rest
      have hcfalse := dropWhile_head_false rest (hdw.symm.trans hrest2eq)
      have hc2 : c = '/' ∨ c = '?' := by
        have h0 := hcfalse
        rw [decide_eq_false_iff_not, not_not] at h0
        exact h0
      have hcq : ¬ c = '?' := by
        simpa using hpqc
      have hcslash : c = '/' := by
        rcases hc2 with h1 | h1
        · exact h1
        · exact absurd h1 hcq
      have hh : path.head? = some '/' := by rw [hpc, hcslash]; rfl
      exact stripTrailingSlash_head hh
  have hpq : ('?' : Char) ∉ p' := by
    intro hm
    rw [hp'] at hm
    have hm2 := stripTrailingSlash_subset _ hm
    by_cases hpe : path = []
    · rw [if_pos hpe] at hm2
      simp at hm2
    · rw [if_neg hpe] at hm2
      rw [hpath] at hm2
      have := List.mem_takeWhile_imp hm2
      simp at this
  exact parseUrl_render scheme host p' (queryOf qs0) hmin hhs hhh hhp hhq2 hhostc hp0 hpq

theorem parseUrl_normalizeUrl {u : Str} {r : ParsedUrl} (hp : parseUrl u = some r) :
    parseUrl (normalizeUrl u)
      = some { origin := r.origin,
               pathname := if stripTrailingSlash r.pathname = [] then ['/']
                 else stripTrailingSlash r.pathname,
               search := queryOf r.search } := by
  obtain ⟨o, pn, se⟩ := r
  have hnu : normalizeUrl u = o ++ stripTrailingSlash pn
      ++ (if queryOf se = [] then [] else '?' :: queryOf se) := by
    rw [normalizeUrl_eq u, hp]
  rw [hnu]
  rw [parseUrl] at hp
  simp only [] at hp
  cases hidx : JsStr.indexOf (u.takeWhile (fun c => ¬ (c = '#'))) schemeSep with
  | none =>
    rw [hidx] at hp
    simp at hp
  | some i =>
    rw [hidx] at hp
    simp only [Option.some.injEq, ParsedUrl.mk.injEq] at hp
    obtain ⟨ho, hpn, hse⟩ := hp
    subst ho
    subst hpn
    subst hse
    exact parseUrl_render_parsed (u.takeWhile (fun c => ¬ (c = '#'))) _ _ _ _ _ _ i hidx
      (fun c hc => by
        have h0 := List.mem_takeWhile_imp hc
        rw [decide_eq_true_eq] at h0
        exact h0)
      rfl rfl rfl rfl rfl rfl

end UrlModel

/-- C9: `normalizeUrl` is idempotent on every URL whose parsed pathname does
not end in two or more slashes (equivalently: stripping one trailing slash
from the parsed pathname leaves no trailing slash), and on every
unparseable URL, which is returned unchanged.  The claim's unconditional
form is refuted by `claim_C9_counterexample`: the trailing-slash strip
removes only one slash per pass. -/
theorem claim_C9 (u : Str)
    (h : ∀ r, UrlModel.parseUrl u = some r →
      (UrlModel.stripTrailingSlash r.pathname).getLast? ≠ some '/') :
    UrlModel.normalizeUrl (UrlModel.normalizeUrl u) = UrlModel.normalizeUrl u := by
  cases hp : UrlModel.parseUrl u with
  | none =>
    have h1 : UrlModel.normalizeUrl u = u := by rw [UrlModel.normalizeUrl_eq u, hp]
    rw [h1]
    exact h1
  | some r =>
    have hp2 := UrlModel.parseUrl_normalizeUrl hp
    have hstrip2 : UrlModel.stripTrailingSlash (UrlModel.stripTrailingSlash r.pathname)
        = UrlModel.stripTrailingSlash r.pathname := by
      rw [UrlModel.stripTrailingSlash]
      rw [if_neg (h r hp)]
    have hq := UrlModel.queryOf_queryOf r.search
    have hpath : UrlModel.stripTrailingSlash
        (if UrlModel.stripTrailingSlash r.pathname = [] then ['/']
          else UrlModel.stripTrailingSlash r.pathname)
        = UrlModel.stripTrailingSlash r.pathname := by
      by_cases hpe : UrlModel.stripTrailingSlash r.pathname = []
      · rw [if_pos hpe, hpe]
        decide
      · rw [if_neg hpe]
        exact hstrip2
    rw [UrlModel.normalizeUrl_eq (UrlModel.normalizeUrl u), hp2]
    simp only []
    rw [hpath, hq, UrlModel.normalizeUrl_eq u, hp]

theorem claim_C9_witness :
    UrlModel.normalizeUrl
        (UrlModel.normalizeUrl "http://a.com/x?b=2&a=1&utm_source=z".toList)
      = UrlModel.normalizeUrl "http://a.com/x?b=2&a=1&utm_source=z".toList := by
  apply claim_C9
  intro r hr
  have hA : UrlModel.parseUrl "http://a.com/x?b=2&a=1&utm_source=z".toList
      = some (UrlModel.ParsedUrl.mk "http://a.com".toList "/x".toList
        "b=2&a=1&utm_source=z".toList) := by decide
  rw [hA] at hr
  injection hr with hr'
  subst hr'
  decide

/-- C9 as frozen fails on `http://a.com//`: the first normalization strips
one of the two trailing slashes (`http://a.com/`), the second strips the
remaining one (`http://a.com`), so the function is not a fixed point after
one application. -/
theorem claim_C9_counterexample :
    UrlModel.normalizeUrl (UrlModel.normalizeUrl "http://a.com//".toList)
      ≠ UrlModel.normalizeUrl "http://a.com//".toList := by decide
